import Mathlib

/-!
Verification of the Certificate-Generator pipeline (`generate.py` and the
three `src/` generator scripts) against its natural-language specification.

Pure string-processing functions are embedded directly; functions that
shell out to external tools (`ots`, `curl`, `gpg`, `lualatex`) are embedded
as functions of an explicit environment record describing the outcome of
each external invocation (exit codes and captured output), with Python
exceptions modelled by `Except`.  The filesystem is modelled as the list of
existing paths where a claim depends on it.
-/

namespace CertGen

/-! ## Hash display formatting (`format_hash`, `split_and_format_hash`) -/

/-- `hash_value[i : i + 4] for i in range(0, len(hash_value), 4)`:
split a list into consecutive chunks of size `n` (last chunk may be short).
Also used with `n = 4096` for the `file.read(4096)` loop of `compute_sha256`
and with `n = 64` for SHA-256 block splitting. -/
def chunksOf (n : Nat) : List α → List (List α)
  | [] => []
  | a :: as =>
    if 0 < n then (a :: as).take n :: chunksOf n ((a :: as).drop n) else []
termination_by l => l.length
decreasing_by
  simp only [List.length_drop, List.length_cons]
  omega

theorem join_chunksOf (n : Nat) (hn : 0 < n) (l : List α) :
    (chunksOf n l).flatten = l := by
  match l with
  | [] => rw [chunksOf]; rfl
  | a :: as =>
    rw [chunksOf, if_pos hn, List.flatten_cons,
      join_chunksOf n hn ((a :: as).drop n), List.take_append_drop]
termination_by l.length
decreasing_by
  simp only [List.length_drop, List.length_cons]
  omega

/-- `" ".join(chunks)`: join string pieces with a single space separator. -/
def joinSpace : List (List Char) → List Char
  | [] => []
  | [c] => c
  | c :: c2 :: cs => c ++ ' ' :: joinSpace (c2 :: cs)

/-- `format_hash` from `generate.py`: chop the string into 4-character
chunks and join them with single spaces. -/
def format_hash (hash_value : List Char) : List Char :=
  joinSpace (chunksOf 4 hash_value)

/-- `split_and_format_hash` from `generate.py`: split at the floor-division
midpoint and format each half. -/
def split_and_format_hash (hash : List Char) : List Char × List Char :=
  let midpoint := hash.length / 2
  let first_half := hash.take midpoint
  let second_half := hash.drop midpoint
  (format_hash first_half, format_hash second_half)

/-- De-formatting for display strings: delete every space character. -/
def removeSpaces (l : List Char) : List Char :=
  l.filter (fun c => c ≠ ' ')

theorem removeSpaces_append (a b : List Char) :
    removeSpaces (a ++ b) = removeSpaces a ++ removeSpaces b := by
  simp [removeSpaces]

theorem removeSpaces_of_no_space (a : List Char) (h : ' ' ∉ a) :
    removeSpaces a = a := by
  rw [removeSpaces, List.filter_eq_self]
  intro c hc
  simp only [ne_eq, decide_eq_true_eq]
  intro hcs
  exact h (hcs ▸ hc)

theorem removeSpaces_joinSpace (L : List (List Char))
    (h : ∀ x ∈ L, ' ' ∉ x) : removeSpaces (joinSpace L) = L.flatten := by
  match L with
  | [] => rfl
  | [c] =>
    simp only [joinSpace, List.flatten, List.append_nil]
    exact removeSpaces_of_no_space c (h c (by simp))
  | c :: c2 :: cs =>
    simp only [joinSpace, List.flatten_cons]
    rw [removeSpaces_append, removeSpaces_of_no_space c (h c (by simp))]
    have htail : removeSpaces (joinSpace (c2 :: cs)) = (c2 :: cs).flatten := by
      apply removeSpaces_joinSpace
      intro x hx
      exact h x (List.mem_cons_of_mem c hx)
    have hsp : removeSpaces (' ' :: joinSpace (c2 :: cs)) =
        removeSpaces (joinSpace (c2 :: cs)) := by
      simp [removeSpaces]
    rw [hsp, htail, List.flatten_cons]

theorem mem_of_mem_chunksOf {n : Nat} (hn : 0 < n) {l : List α}
    {x : List α} (hx : x ∈ chunksOf n l) : ∀ a ∈ x, a ∈ l := by
  intro a ha
  have hj : a ∈ (chunksOf n l).flatten := List.mem_flatten.mpr ⟨x, hx, ha⟩
  rwa [join_chunksOf n hn l] at hj

theorem removeSpaces_format_hash (h : List Char) (hs : ' ' ∉ h) :
    removeSpaces (format_hash h) = h := by
  rw [format_hash, removeSpaces_joinSpace]
  · exact join_chunksOf 4 (by omega) h
  · intro x hx hmem
    exact hs (mem_of_mem_chunksOf (by omega) hx ' ' hmem)

/-! ## Date formatting (`format_date`) -/

/-- Python whitespace as recognised by `str.strip()` and `\s`. -/
def isPyWs (c : Char) : Bool :=
  c = ' ' || c = '\t' || c = '\n' || c = '\r' || c = '\x0b' || c = '\x0c'

/-- ASCII decimal digit. -/
def isDigitChar (c : Char) : Bool := '0' ≤ c && c ≤ '9'

/-- Numeric value of a digit string (most significant first). -/
def digitsToNat (l : List Char) : Nat :=
  l.foldl (fun n c => 10 * n + (c.toNat - 48)) 0

/-- Gregorian leap year, as `calendar.isleap` / `datetime` use it. -/
def isLeap (y : Nat) : Bool :=
  y % 4 = 0 && (y % 100 ≠ 0 || y % 400 = 0)

/-- Number of days in month `m` of year `y`. -/
def daysInMonth (y m : Nat) : Nat :=
  if m = 2 then (if isLeap y then 29 else 28)
  else if m = 4 ∨ m = 6 ∨ m = 9 ∨ m = 11 then 30
  else 31

/-- Split a character list at every dash, keeping empty pieces, as
`s.split("-")` does. -/
def splitDash : List Char → List (List Char)
  | [] => [[]]
  | c :: cs =>
    if c = '-' then [] :: splitDash cs
    else (c :: (splitDash cs).headD []) :: (splitDash cs).tail

/-- `datetime.strptime(s, "%Y-%m-%d")`: exactly three dash-separated
fields; the year is exactly 4 digits, month and day 1–2 digits; the result
must be a valid proleptic-Gregorian date with year at least 1.
Returns `none` where Python raises `ValueError`. -/
def strptimeYMD (s : String) : Option (Nat × Nat × Nat) :=
  match splitDash s.toList with
  | [ys, ms, ds] =>
    if ys.length = 4 ∧ ys.all isDigitChar ∧
       (ms.length = 1 ∨ ms.length = 2) ∧ ms.all isDigitChar ∧
       (ds.length = 1 ∨ ds.length = 2) ∧ ds.all isDigitChar ∧
       1 ≤ digitsToNat ys ∧ 1 ≤ digitsToNat ms ∧ digitsToNat ms ≤ 12 ∧
       1 ≤ digitsToNat ds ∧
       digitsToNat ds ≤ daysInMonth (digitsToNat ys) (digitsToNat ms) then
      some (digitsToNat ys, digitsToNat ms, digitsToNat ds)
    else none
  | _ => none

/-- Full English month names, as `strftime("%B")` produces in the C locale. -/
def monthName (m : Nat) : String :=
  ["January", "February", "March", "April", "May", "June", "July",
   "August", "September", "October", "November", "December"].getD (m - 1) ""

/-- Python list indexing with negative-index wrap-around;
`none` models `IndexError`. -/
def pyIndex (l : List String) (i : Int) : Option String :=
  let j : Int := if i < 0 then i + l.length else i
  if 0 ≤ j ∧ j < l.length then some (l.getD j.toNat "") else none

/-- The ordinal-suffix expression of `format_date`:
`"th" if 4 <= day <= 20 or 24 <= day <= 30 else ["st", "nd", "rd"][day % 10 - 1]`,
with `day % 10 - 1` evaluated over the integers as in Python. -/
def daySuffix (day : Nat) : Option String :=
  if (4 ≤ day ∧ day ≤ 20) ∨ (24 ≤ day ∧ day ≤ 30) then some "th"
  else pyIndex ["st", "nd", "rd"] ((day : Int) % 10 - 1)

/-- `format_date` from `generate.py`: parse `YYYY-MM-DD`, then produce
the f-string of day, suffix, and strftime of percent-B comma percent-Y.
`none` models a raised
exception (`ValueError` from `strptime` or `IndexError` from the suffix
lookup). -/
def format_date (date_string : String) : Option String :=
  match strptimeYMD date_string with
  | none => none
  | some (y, m, d) =>
    match daySuffix d with
    | none => none
    | some suffix =>
      some (toString d ++ suffix ++ " " ++ monthName m ++ ", " ++ toString y)

/-- The ordinal-suffix table as the specification words it:
`th` for days 4–20 and 24–30; `st` for 1, 21, 31; `nd` for 2, 22;
`rd` for 3, 23. -/
def claimOrdinalSuffix (d : Nat) : String :=
  if d = 1 ∨ d = 21 ∨ d = 31 then "st"
  else if d = 2 ∨ d = 22 then "nd"
  else if d = 3 ∨ d = 23 then "rd"
  else "th"

theorem daysInMonth_le (y m : Nat) : daysInMonth y m ≤ 31 := by
  rw [daysInMonth]
  split_ifs <;> simp

theorem strptimeYMD_day_bounds (s : String) (y m d : Nat)
    (h : strptimeYMD s = some (y, m, d)) : 1 ≤ d ∧ d ≤ 31 := by
  rw [strptimeYMD] at h
  split at h
  · split at h
    · rename_i hbounds
      injection h with h1
      injection h1 with hy hmd
      injection hmd with hm hd
      subst hd
      refine ⟨hbounds.2.2.2.2.2.2.2.2.2.1, ?_⟩
      exact le_trans hbounds.2.2.2.2.2.2.2.2.2.2 (daysInMonth_le _ _)
    · exact absurd h (by simp)
  · exact absurd h (by simp)

theorem daySuffix_eq_claim (d : Nat) (h1 : 1 ≤ d) (h31 : d ≤ 31) :
    daySuffix d = some (claimOrdinalSuffix d) := by
  interval_cases d <;> rfl

/-! ## Proof maturity resolver (`is_ots_done`, `get_ots_blockhash`) -/

/-- The Python exceptions that can arise in the resolver:
`subprocess.CalledProcessError` (carrying `str(e)`) and `AttributeError`
(from calling `.group(1)` on a failed `re.search`). -/
inductive PyExn where
  | calledProcessError (msg : String)
  | attributeError
  | fileNotFoundError (path : String)
deriving DecidableEq

/-- Outcomes of the external commands one resolver call may run:
exit codes for `ots upgrade`, `ots verify` and `curl`, plus the captured
stderr of `verify` and stdout of `curl`. -/
structure OtsEnv where
  otsFilePath : String
  rpcUser : String
  rpcPassword : String
  upgradeExit : Nat
  verifyExit : Nat
  verifyStderr : String
  curlExit : Nat
  curlStdout : String
deriving DecidableEq

/-- The `ots upgrade` command string built by the source. -/
def upgradeCommand (env : OtsEnv) : String :=
  "ots --bitcoin-node http://" ++ env.rpcUser ++ ":" ++ env.rpcPassword ++
    "@127.0.0.1:8332/ upgrade " ++ env.otsFilePath

/-- The `ots verify` command string built by the source. -/
def verifyCommand (env : OtsEnv) : String :=
  "ots --bitcoin-node http://" ++ env.rpcUser ++ ":" ++ env.rpcPassword ++
    "@127.0.0.1:8332/ verify " ++ env.otsFilePath

/-- The `curl` block-height lookup command string built by the source. -/
def curlCommand (blockHeight : String) : String :=
  "curl -sSL \x27https://mempool.space/api/block-height/" ++ blockHeight ++
    "\x27"

/-- `str(e)` of a `subprocess.CalledProcessError`. -/
def cpeMessage (cmd : String) (code : Nat) : String :=
  "Command \x27" ++ cmd ++ "\x27 returned non-zero exit status " ++
    toString code ++ "."

/-- `subprocess.run(cmd, check=True)`: raises `CalledProcessError` when the
command exits non-zero. -/
def runChecked (cmd : String) (exitCode : Nat) : Except PyExn Unit :=
  if exitCode = 0 then .ok ()
  else .error (.calledProcessError (cpeMessage cmd exitCode))

/-- Python `str.strip()`: remove leading and trailing whitespace. -/
def pyStrip (l : List Char) : List Char :=
  ((l.dropWhile isPyWs).reverse.dropWhile isPyWs).reverse

/-- First match of `re.search` with the pattern Bitcoin-block-digits at the
head of `l`: the literal text `"Bitcoin block "` followed by at least one
digit; returns the maximal digit run (the parenthesised group). -/
def blockPhraseHere (l : List Char) : Option (List Char) :=
  if "Bitcoin block ".toList.isPrefixOf l then
    match (l.drop "Bitcoin block ".toList.length).takeWhile isDigitChar with
    | [] => none
    | d :: ds => some (d :: ds)
  else none

/-- `re.search` over the whole text: the group of the match at the earliest
position, if any. -/
def findBlockHeight : List Char → Option (List Char)
  | [] => none
  | c :: cs =>
    match blockPhraseHere (c :: cs) with
    | some g => some g
    | none => findBlockHeight cs

/-- Declarative reading of "the diagnostic output contains a phrase of the
form Bitcoin block digits": somewhere in `s` the literal
`"Bitcoin block "` occurs followed immediately by a digit. -/
def hasBlockPhrase (s : String) : Prop :=
  ∃ i d, isDigitChar d ∧ ("Bitcoin block ".toList ++ [d]) <+: s.toList.drop i

theorem findBlockHeight_isSome_iff (l : List Char) :
    (findBlockHeight l).isSome = true ↔
      ∃ i d, isDigitChar d ∧ ("Bitcoin block ".toList ++ [d]) <+: l.drop i := by
  induction l with
  | nil =>
    simp only [findBlockHeight, Option.isSome_none]
    constructor
    · intro h
      exact absurd h (by simp)
    · rintro ⟨i, d, _, t, ht⟩
      rw [List.drop_nil] at ht
      exact absurd ht (by simp)
  | cons c cs ih =>
    rw [findBlockHeight]
    cases hb : blockPhraseHere (c :: cs) with
    | some g =>
      simp only [Option.isSome_some, true_iff]
      rw [blockPhraseHere] at hb
      split at hb
      · rename_i hpre
        obtain ⟨t, ht⟩ := List.isPrefixOf_iff_prefix.mp hpre
        split at hb
        · exact absurd hb (by simp)
        · rename_i d ds hds
          refine ⟨0, d, ?_, ?_⟩
          · have hd : d ∈ List.takeWhile isDigitChar
                ((c :: cs).drop "Bitcoin block ".toList.length) := by
              rw [hds]; exact List.mem_cons_self d ds
            exact List.mem_takeWhile_imp hd
          · rw [List.drop_zero, ← ht]
            have hdrop : ((("Bitcoin block ".toList ++ t)).drop
                "Bitcoin block ".toList.length) = t := by
              rw [List.drop_append_of_le_length (le_refl _)]
              simp
            rw [← ht, hdrop] at hds
            have ht2 : t = (d :: ds) ++ t.dropWhile isDigitChar := by
              conv_lhs => rw [← List.takeWhile_append_dropWhile
                (p := isDigitChar) (l := t)]
              rw [hds]
            rw [ht2, ← List.append_assoc]
            exact ⟨ds ++ t.dropWhile isDigitChar, by simp⟩
      · exact absurd hb (by simp)
    | none =>
      rw [ih]
      constructor
      · rintro ⟨i, d, hd, hpre⟩
        exact ⟨i + 1, d, hd, by simpa using hpre⟩
      · rintro ⟨i, d, hd, hpre⟩
        match i with
        | i' + 1 => exact ⟨i', d, hd, by simpa using hpre⟩
        | 0 =>
          exfalso
          rw [List.drop_zero] at hpre
          obtain ⟨t, ht⟩ := hpre
          rw [blockPhraseHere] at hb
          rw [List.append_assoc] at ht
          have hpre2 : "Bitcoin block ".toList.isPrefixOf (c :: cs) := by
            rw [List.isPrefixOf_iff_prefix, ← ht]
            exact ⟨[d] ++ t, rfl⟩
          rw [if_pos hpre2] at hb
          have hdrop : (c :: cs).drop "Bitcoin block ".toList.length =
              d :: t := by
            rw [← ht, List.drop_append_of_le_length (le_refl _)]
            simp
          rw [hdrop] at hb
          rw [List.takeWhile_cons, if_pos hd] at hb
          exact absurd hb (by simp)

/-- `is_ots_done` from `generate.py`: run `ots upgrade` then `ots verify`
(both `check=True`), search the verify stderr for the block phrase, and
return whether it matched; `except subprocess.CalledProcessError` converts
a non-zero exit of either command into a normal `False` return. -/
def is_ots_done (env : OtsEnv) : Except PyExn Bool :=
  let body : Except PyExn Bool :=
    (runChecked (upgradeCommand env) env.upgradeExit).bind fun _ =>
      (runChecked (verifyCommand env) env.verifyExit).bind fun _ =>
        .ok (findBlockHeight env.verifyStderr.toList).isSome
  match body with
  | .error (.calledProcessError _) => .ok false
  | other => other

/-- `get_ots_blockhash` from `generate.py` /
`generate_bitcoin_pdf_certificate.py`: upgrade, verify, parse the block
height from the verify stderr (`.group(1)` raises `AttributeError` when the
search fails), resolve it with `curl`, and return the stripped stdout.
Both `except` clauses convert the exception into a normally returned
message string. -/
def get_ots_blockhash (env : OtsEnv) : Except PyExn String :=
  let body : Except PyExn String :=
    (runChecked (upgradeCommand env) env.upgradeExit).bind fun _ =>
      (runChecked (verifyCommand env) env.verifyExit).bind fun _ =>
        (match findBlockHeight env.verifyStderr.toList with
          | none => (.error .attributeError : Except PyExn String)
          | some h => .ok (String.mk h)).bind fun block_height =>
          (runChecked (curlCommand block_height) env.curlExit).bind fun _ =>
            .ok (String.mk (pyStrip env.curlStdout.toList))
  match body with
  | .error (.calledProcessError e) => .ok ("Failed to process: " ++ e)
  | .error .attributeError =>
    .ok "Block height not found in OTS verification output"
  | .error e => .error e
  | .ok s => .ok s

/-! ## Content digest (`compute_sha256`) -/

/-- 2 to the 32nd, the word modulus of SHA-256 arithmetic. -/
def w32 : Nat := 4294967296

/-- 32-bit right rotation. -/
def rotr32 (x k : Nat) : Nat :=
  ((x % w32) >>> k) ||| (((x % w32) <<< (32 - k)) % w32)

/-- 32-bit bitwise complement. -/
def bnot32 (x : Nat) : Nat := (x % w32) ^^^ (w32 - 1)

def bigSigma0 (x : Nat) : Nat := rotr32 x 2 ^^^ rotr32 x 13 ^^^ rotr32 x 22

def bigSigma1 (x : Nat) : Nat := rotr32 x 6 ^^^ rotr32 x 11 ^^^ rotr32 x 25

def smallSigma0 (x : Nat) : Nat :=
  rotr32 x 7 ^^^ rotr32 x 18 ^^^ ((x % w32) >>> 3)

def smallSigma1 (x : Nat) : Nat :=
  rotr32 x 17 ^^^ rotr32 x 19 ^^^ ((x % w32) >>> 10)

def chV (e f g : Nat) : Nat := (e &&& f) ^^^ (bnot32 e &&& g)

def majV (a b c : Nat) : Nat := (a &&& b) ^^^ (a &&& c) ^^^ (b &&& c)

/-- The 64 SHA-256 round constants. -/
def K256 : List Nat :=
  [1116352408, 1899447441, 3049323471, 3921009573, 961987163,
   1508970993, 2453635748, 2870763221, 3624381080, 310598401,
   607225278, 1426881987, 1925078388, 2162078206, 2614888103,
   3248222580, 3835390401, 4022224774, 264347078, 604807628,
   770255983, 1249150122, 1555081692, 1996064986, 2554220882,
   2821834349, 2952996808, 3210313671, 3336571891, 3584528711,
   113926993, 338241895, 666307205, 773529912, 1294757372,
   1396182291, 1695183700, 1986661051, 2177026350, 2456956037,
   2730485921, 2820302411, 3259730800, 3345764771, 3516065817,
   3600352804, 4094571909, 275423344, 430227734, 506948616,
   659060556, 883997877, 958139571, 1322822218, 1537002063,
   1747873779, 1955562222, 2024104815, 2227730452, 2361852424,
   2428436474, 2756734187, 3204031479, 3329325298]

/-- The SHA-256 initial hash value. -/
def H0 : List Nat :=
  [1779033703, 3144134277, 1013904242,
   2773480762, 1359893119, 2600822924,
   528734635, 1541459225]

/-- SHA-256 padding: append 0x80, zeros to 56 mod 64, and the bit length
as 8 big-endian bytes. -/
def padMessage (msg : List Nat) : List Nat :=
  msg ++ 128 :: List.replicate ((119 - msg.length % 64) % 64) 0 ++
    [((msg.length * 8) >>> 56) % 256, ((msg.length * 8) >>> 48) % 256,
     ((msg.length * 8) >>> 40) % 256, ((msg.length * 8) >>> 32) % 256,
     ((msg.length * 8) >>> 24) % 256, ((msg.length * 8) >>> 16) % 256,
     ((msg.length * 8) >>> 8) % 256, (msg.length * 8) % 256]

/-- Big-endian bytes to word. -/
def bytesToWord (bs : List Nat) : Nat :=
  bs.foldl (fun acc b => acc * 256 + b % 256) 0

/-- A 64-byte block as 16 big-endian 32-bit words. -/
def toWords (block : List Nat) : List Nat :=
  (chunksOf 4 block).map bytesToWord

/-- Extend the 16-word schedule by `n` further words. -/
def extendW : Nat → List Nat → List Nat
  | 0, w => w
  | n + 1, w =>
    extendW n (w ++ [(smallSigma1 (w.getD (w.length - 2) 0) +
      w.getD (w.length - 7) 0 + smallSigma0 (w.getD (w.length - 15) 0) +
      w.getD (w.length - 16) 0) % w32])

/-- One SHA-256 compression round on the 8-word working state. -/
def shaRound (st : List Nat) (k w : Nat) : List Nat :=
  match st with
  | [a, b, c, d, e, f, g, h] =>
    [(h + bigSigma1 e + chV e f g + k + w + (bigSigma0 a + majV a b c)) % w32,
     a, b, c,
     (d + (h + bigSigma1 e + chV e f g + k + w)) % w32,
     e, f, g]
  | other => other

/-- Compress one 64-byte block into the hash state. -/
def processBlock (H : List Nat) (block : List Nat) : List Nat :=
  let W := extendW 48 (toWords block)
  let st := (K256.zip W).foldl (fun st kw => shaRound st kw.1 kw.2) H
  (H.zip st).map (fun p => (p.1 + p.2) % w32)

/-- A 32-bit word as 8 lowercase hex characters. -/
def toHex8 (x : Nat) : List Char :=
  (List.range 8).map (fun i =>
    "0123456789abcdef".toList.getD ((x >>> (28 - 4 * i)) % 16) '0')

/-- `hashlib.sha256(bytes).hexdigest()`: the full one-pass SHA-256 hex
digest of a byte sequence. -/
def sha256hex (msg : List Nat) : String :=
  String.mk
    ((((chunksOf 64 (padMessage msg)).foldl processBlock H0).map toHex8).flatten)

/-- The state of a `hashlib` object is the byte sequence absorbed so far;
`update` appends (the hashlib contract: `m.update(a); m.update(b)` is
equivalent to `m.update(a + b)`). -/
def hashlibUpdate (absorbed chunk : List Nat) : List Nat := absorbed ++ chunk

/-- `compute_sha256` from `generate.py`: feed the file content to the hash
object in 4096-byte chunks via the `iter(lambda: file.read(4096), b"")`
loop, then take the hex digest. -/
def compute_sha256 (content : List Nat) : String :=
  sha256hex ((chunksOf 4096 content).foldl hashlibUpdate [])

theorem foldl_hashlibUpdate (L : List (List Nat)) (acc : List Nat) :
    L.foldl hashlibUpdate acc = acc ++ L.flatten := by
  induction L generalizing acc with
  | nil => simp
  | cons x xs ih =>
    rw [List.foldl_cons, ih, List.flatten_cons, hashlibUpdate,
      List.append_assoc]

theorem hasBlockPhrase_iff (s : String) :
    hasBlockPhrase s ↔ (findBlockHeight s.toList).isSome = true := by
  rw [hasBlockPhrase]
  exact (findBlockHeight_isSome_iff s.toList).symm

/-! ## Archival move (`move_files_to_final`) -/

/-- Environment for `move_files_to_final`: which source paths exist on disk
when the loop reaches them, and whether the `shutil.move` of a given source
path raises. -/
structure MoveEnv where
  onDisk : String → Bool
  moveRaises : String → Bool

/-- Observable outcome of `move_files_to_final`: the returned boolean, the
source paths actually moved (in order), and the paths warned about as
missing (in order). -/
structure MoveResult where
  ok : Bool
  moved : List String
  warnings : List String
deriving DecidableEq

/-- The `for file_path in files_to_move` loop inside the `try`:
an existing file is moved (a raising move aborts the loop and the `except`
clause returns `False`), a missing file only triggers a warning print. -/
def moveLoop (env : MoveEnv) :
    List String → List String → List String → MoveResult
  | [], moved, warnings => ⟨true, moved.reverse, warnings.reverse⟩
  | f :: fs, moved, warnings =>
    if env.onDisk f then
      if env.moveRaises f then ⟨false, moved.reverse, warnings.reverse⟩
      else moveLoop env fs (f :: moved) warnings
    else moveLoop env fs moved (f :: warnings)

/-- `move_files_to_final` from `generate.py`: after `os.makedirs` with
`exist_ok=True` (modelled as always succeeding), move the proof file, the
signed text and the PDF into the final directory. -/
def move_files_to_final (env : MoveEnv)
    (pathfile signed_txt_path pdf_path : String) : MoveResult :=
  moveLoop env [pathfile, signed_txt_path, pdf_path] [] []

theorem moveLoop_no_raise (env : MoveEnv) (fs : List String)
    (h : ∀ f ∈ fs, env.moveRaises f = false) :
    ∀ moved warnings, moveLoop env fs moved warnings =
      ⟨true, moved.reverse ++ fs.filter env.onDisk,
        warnings.reverse ++ fs.filter (fun f => !env.onDisk f)⟩ := by
  induction fs with
  | nil => intro moved warnings; simp [moveLoop]
  | cons f fs ih =>
    intro moved warnings
    rw [moveLoop]
    have hf : env.moveRaises f = false := h f (by simp)
    by_cases hd : env.onDisk f
    · rw [if_pos hd, if_neg (by rw [hf]; exact Bool.false_ne_true),
        ih (fun g hg => h g (List.mem_cons_of_mem f hg))]
      simp [hd]
    · rw [if_neg hd, ih (fun g hg => h g (List.mem_cons_of_mem f hg))]
      simp [hd, Bool.eq_false_iff.mpr hd]

theorem moveLoop_ok_false_iff (env : MoveEnv) (fs : List String) :
    ∀ moved warnings, (moveLoop env fs moved warnings).ok = false ↔
      ∃ f ∈ fs, env.onDisk f = true ∧ env.moveRaises f = true := by
  induction fs with
  | nil =>
    intro moved warnings
    simp [moveLoop]
  | cons f fs ih =>
    intro moved warnings
    rw [moveLoop]
    by_cases hd : env.onDisk f
    · by_cases hr : env.moveRaises f
      · rw [if_pos hd, if_pos hr]
        simp [hd, hr]
      · rw [if_pos hd, if_neg hr, ih]
        simp only [List.mem_cons]
        constructor
        · rintro ⟨g, hg, hgd, hgr⟩
          exact ⟨g, Or.inr hg, hgd, hgr⟩
        · rintro ⟨g, hg | hg, hgd, hgr⟩
          · exact absurd (hg ▸ hgr) (by simpa using hr)
          · exact ⟨g, hg, hgd, hgr⟩
    · rw [if_neg hd, ih]
      simp only [List.mem_cons]
      constructor
      · rintro ⟨g, hg, hgd, hgr⟩
        exact ⟨g, Or.inr hg, hgd, hgr⟩
      · rintro ⟨g, hg | hg, hgd, hgr⟩
        · exact absurd (hg ▸ hgd) (by simpa using hd)
        · exact ⟨g, hg, hgd, hgr⟩

theorem moveLoop_moved_mono (env : MoveEnv) (fs : List String)
    (f : String) :
    ∀ moved warnings, f ∈ moved →
      f ∈ (moveLoop env fs moved warnings).moved := by
  induction fs with
  | nil =>
    intro moved warnings hf
    simpa [moveLoop] using hf
  | cons g fs ih =>
    intro moved warnings hf
    rw [moveLoop]
    by_cases hd : env.onDisk g
    · by_cases hr : env.moveRaises g
      · rw [if_pos hd, if_pos hr]
        simpa using hf
      · rw [if_pos hd, if_neg hr]
        exact ih (g :: moved) warnings (List.mem_cons_of_mem g hf)
    · rw [if_neg hd]
      exact ih moved (g :: warnings) hf

/-! ## Plaintext generators (`generate_certificate`) -/

/-- Exit codes of the external commands run by the sign-and-timestamp tail
of the two plaintext generators. -/
structure SignEnv where
  gpgExit : Nat
  otsStampExit : Nat

/-- `sign_certificate`: the signed path is the input path minus its last 4
characters plus `-signed.txt`. -/
def signedFileName (file_path : List Char) : List Char :=
  file_path.take (file_path.length - 4) ++ "-signed.txt".toList

/-- `gpg --clearsign` via `subprocess.run(check=True)`: on success the
clearsigned file exists; a non-zero exit raises `CalledProcessError`.
The filesystem is the list of existing paths. -/
def sign_certificate (env : SignEnv) (fs : List (List Char))
    (file_path : List Char) : Except PyExn (List (List Char)) :=
  if env.gpgExit = 0 then .ok (signedFileName file_path :: fs)
  else
    .error (.calledProcessError (cpeMessage
      ("gpg --default-key admin@planb.network --output \"" ++
        String.mk (signedFileName file_path) ++ "\" --clearsign \"" ++
        String.mk file_path ++ "\"") env.gpgExit))

/-- `os.remove`: delete the path; raises `FileNotFoundError` when absent. -/
def osRemove (fs : List (List Char)) (p : List Char) :
    Except PyExn (List (List Char)) :=
  if p ∈ fs then .ok (fs.filter (fun q => q ≠ p))
  else .error (.fileNotFoundError (String.mk p))

/-- `timestamp_file`: `ots stamp` creates the sibling `.ots` proof file on
success; a non-zero exit raises `CalledProcessError`. -/
def timestamp_file (env : SignEnv) (fs : List (List Char))
    (file_path : List Char) : Except PyExn (List (List Char)) :=
  if env.otsStampExit = 0 then .ok ((file_path ++ ".ots".toList) :: fs)
  else
    .error (.calledProcessError (cpeMessage
      ("ots stamp \"" ++ String.mk file_path ++ "\"") env.otsStampExit))

/-- The write-sign-remove-timestamp tail shared verbatim by
`generate_certificate` of `generate_bitcoin_txt_certificate.py` and of
`generate_course_txt_certificate.py`: write the plaintext certificate,
clearsign it, delete the unsigned file, timestamp the signed file.
Returns the resulting filesystem on success. -/
def writeSignRemoveStamp (env : SignEnv) (fs : List (List Char))
    (file_path : List Char) : Except PyExn (List (List Char)) :=
  (sign_certificate env (file_path :: fs) file_path).bind fun fs2 =>
    (osRemove fs2 file_path).bind fun fs3 =>
      timestamp_file env fs3 (signedFileName file_path)

/-- `generate_certificate` of `generate_bitcoin_txt_certificate.py`:
the certificate text (whose contents come from the edition and result data
plus the fetched block header, none of which affect the filesystem) is
written to `result_folder_path/bitcoin_certificate.txt`, signed, the
unsigned file removed, and the signed file timestamped. -/
def generate_certificate_bitcoin (env : SignEnv)
    (result_folder_path : List Char) (fs : List (List Char)) :
    Except PyExn (List (List Char)) :=
  writeSignRemoveStamp env fs
    (result_folder_path ++ "/bitcoin_certificate.txt".toList)

/-- `generate_certificate` of `generate_course_txt_certificate.py`:
the certificate text is written to
`../pending/course_certificate_USERNAME_COURSEID.txt`, signed, the unsigned
file removed, and the signed file timestamped. -/
def generate_certificate_course (env : SignEnv)
    (username course_id : List Char) (fs : List (List Char)) :
    Except PyExn (List (List Char)) :=
  writeSignRemoveStamp env fs
    ("../pending/course_certificate_".toList ++ username ++ "_".toList ++
      course_id ++ ".txt".toList)

theorem length_signedFileName (p : List Char) (h : 4 ≤ p.length) :
    (signedFileName p).length = p.length + 7 := by
  rw [signedFileName, List.length_append, List.length_take]
  have h11 : ("-signed.txt".toList.length) = 11 := rfl
  omega

theorem writeSignRemoveStamp_ok (env : SignEnv) (fs : List (List Char))
    (p : List Char) (hp : 4 ≤ p.length) (fs2 : List (List Char))
    (h : writeSignRemoveStamp env fs p = .ok fs2) :
    p ∉ fs2 ∧ signedFileName p ∈ fs2 ∧
      signedFileName p ++ ".ots".toList ∈ fs2 := by
  have hsne : signedFileName p ≠ p := by
    intro he
    have := length_signedFileName p hp
    rw [he] at this
    omega
  have hone : signedFileName p ++ ".ots".toList ≠ p := by
    intro he
    have h1 := length_signedFileName p hp
    have h2 := congrArg List.length he
    rw [List.length_append] at h2
    have h4 : (".ots".toList.length) = 4 := rfl
    omega
  rw [writeSignRemoveStamp, sign_certificate] at h
  by_cases hg : env.gpgExit = 0
  · rw [if_pos hg] at h
    simp only [Except.bind] at h
    rw [osRemove, if_pos (by simp)] at h
    simp only [Except.bind] at h
    rw [timestamp_file] at h
    by_cases ho : env.otsStampExit = 0
    · rw [if_pos ho] at h
      injection h with hfs
      subst hfs
      refine ⟨?_, ?_, by simp⟩
      · intro hmem
        rcases List.mem_cons.mp hmem with he | hmem2
        · exact hone he.symm
        · have := List.of_mem_filter hmem2
          simp at this
      · refine List.mem_cons_of_mem _ (List.mem_filter.mpr ⟨by simp, ?_⟩)
        simp only [ne_eq, decide_eq_true_eq]
        exact hsne
    · rw [if_neg ho] at h
      exact absurd h (by simp)
  · rw [if_neg hg] at h
    simp only [Except.bind] at h
    exact absurd h (by simp)

/-! ## Pipeline orchestrators (idempotency gate) -/

/-- Effectful actions an orchestrator may perform for one item.  Console
prints are not modelled: they are not file writes or tool invocations. -/
inductive Action where
  | runTool (cmd : String)
  | runCompiler (texPath : String)
  | writeFile (path : String)
  | moveFile (src dst : String)
  | removeFile (path : String)
deriving DecidableEq

/-- Tool invocations performed by one `is_ots_done` call: `ots upgrade`,
then (only if upgrade exited zero, else the exception skips it)
`ots verify`. -/
def isOtsDoneActions (oe : OtsEnv) : List Action :=
  Action.runTool (upgradeCommand oe) ::
    (if oe.upgradeExit = 0 then [Action.runTool (verifyCommand oe)] else [])

/-- Tool invocations performed by one `get_ots_blockhash` call. -/
def getOtsBlockhashActions (oe : OtsEnv) : List Action :=
  Action.runTool (upgradeCommand oe) ::
    (if oe.upgradeExit = 0 then
      Action.runTool (verifyCommand oe) ::
        (if oe.verifyExit = 0 then
          match findBlockHeight oe.verifyStderr.toList with
          | some hgt => [Action.runTool (curlCommand (String.mk hgt))]
          | none => []
        else [])
    else [])

/-- Compiler passes performed by `compile_tex_to_pdf` of
`generate_bitcoin_pdf_certificate.py`: two `lualatex` runs, the second
skipped when the first exits non-zero (the exception aborts the loop). -/
def compileTexActions (latexExit1 : Nat) (texPath : String) : List Action :=
  Action.runCompiler texPath ::
    (if latexExit1 = 0 then [Action.runCompiler texPath] else [])

/-- The gpg clearsign command of `sign_certificate`. -/
def gpgCommand (file_path : String) : String :=
  "gpg --default-key admin@planb.network --output \"" ++
    String.mk (signedFileName file_path.toList) ++ "\" --clearsign \"" ++
    file_path ++ "\""

/-- The ots stamp command of `timestamp_file`. -/
def otsStampCommand (file_path : String) : String :=
  "ots stamp \"" ++ file_path ++ "\""

/-- Actions performed by `generate_certificate` of
`generate_bitcoin_txt_certificate.py`: write the unsigned text, run gpg;
on gpg success remove the unsigned text and run `ots stamp` (a gpg failure
raises before the removal). -/
def generateCertificateActions (se : SignEnv) (file_path : String) :
    List Action :=
  Action.writeFile file_path :: Action.runTool (gpgCommand file_path) ::
    (if se.gpgExit = 0 then
      [Action.removeFile file_path,
       Action.runTool (otsStampCommand
         (String.mk (signedFileName file_path.toList)))]
    else [])

/-- Environment of one `results` subfolder iteration of the
`generate_bitcoin_pdf_certificate.py` main loop. -/
structure PdfItemEnv where
  onDisk : String → Bool
  otsEnv : OtsEnv
  latexExit1 : Nat
  tempPdfAppears : Bool
  bakFiles : List String

/-- One iteration of the `for subfolder in sorted(subfolders)` body of
`generate_bitcoin_pdf_certificate.py`: the item is processed only when its
proof file exists and its rendered PDF does not; processing polls
maturity, and on maturity resolves the anchor, writes the filled template
into the shared pending folder, compiles it, and when the temporary PDF
appeared moves it to the result folder and removes `.bak` files there. -/
def processSubfolder (env : PdfItemEnv) (result_folder_path : String) :
    List Action :=
  let ots_file := result_folder_path ++ "/bitcoin_certificate-signed.txt.ots"
  let pdf_file := result_folder_path ++ "/bitcoin_certificate-signed.pdf"
  if env.onDisk ots_file && !(env.onDisk pdf_file) then
    isOtsDoneActions env.otsEnv ++
      (match is_ots_done env.otsEnv with
       | .ok true =>
         getOtsBlockhashActions env.otsEnv ++
           Action.writeFile "../pending/bitcoin_certificate-signed.tex" ::
           compileTexActions env.latexExit1
             "../pending/bitcoin_certificate-signed.tex" ++
           (if env.tempPdfAppears then
             Action.moveFile "../pending/bitcoin_certificate-signed.pdf"
               pdf_file :: env.bakFiles.map Action.removeFile
           else [])
       | _ => [])
  else []

/-- `get_total_score` of `generate_bitcoin_txt_certificate.py`: sum of the
category scores, or 0 when the `categories` key is missing. -/
def get_total_score (categories : Option (List Int)) : Int :=
  match categories with
  | none => 0
  | some scores => scores.sum

/-- Environment of one `process_result` call of
`generate_bitcoin_txt_certificate.py`. -/
structure TxtItemEnv where
  resultYmlExists : Bool
  categories : Option (List Int)
  otsExists : Bool
  signEnv : SignEnv

/-- `process_result` of `generate_bitcoin_txt_certificate.py`: skip when
`result.yml` is missing; for a passing score, generate the certificate
only when the signed proof file does not already exist. -/
def process_result (env : TxtItemEnv) (result_folder_path : String) :
    List Action :=
  if !env.resultYmlExists then []
  else if 80 ≤ get_total_score env.categories then
    if env.otsExists then []
    else
      generateCertificateActions env.signEnv
        (result_folder_path ++ "/bitcoin_certificate.txt")
  else []

/-! ## Property extraction (`extract_property`) -/

/-- Case-insensitive character comparison, as `re.IGNORECASE` compares a
literal pattern character with a text character. -/
def ciEq (a b : Char) : Bool := a.toLower == b.toLower

/-- Does the literal (escaped) property name match case-insensitively at
the head of the text? -/
def matchesCI : List Char → List Char → Bool
  | [], _ => true
  | _ :: _, [] => false
  | p :: ps, t :: ts => ciEq p t && matchesCI ps ts

/-- The final group `(.+)` at the current position: at least one
non-newline character, greedy to the end of the line. -/
def dotPlus (l : List Char) : Option (List Char) :=
  match l with
  | [] => none
  | c :: cs =>
    if c = '\n' then none
    else some ((c :: cs).takeWhile (fun x => x != '\n'))

/-- Greedy whitespace-star followed by `(.+)`, with regex backtracking:
consume as much whitespace as possible, then give characters back until
`(.+)` can match. -/
def wsStarDot : List Char → Option (List Char)
  | [] => none
  | c :: cs =>
    if isPyWs c then
      match wsStarDot cs with
      | some g => some g
      | none => dotPlus (c :: cs)
    else dotPlus (c :: cs)

/-- The optional colon, then whitespace-star and the group, preferring to
consume the colon (greedy `:?` with backtracking). -/
def colonTail (l : List Char) : Option (List Char) :=
  match l with
  | ':' :: cs =>
    (match wsStarDot cs with
     | some g => some g
     | none => wsStarDot (':' :: cs))
  | _ => wsStarDot l

/-- `re.search` over the text with the pattern of `extract_property`
(literal name, optional colon, whitespace, group): the group of the match
at the earliest position, if any.  At the empty suffix the pattern can
never match, since the group needs a character. -/
def searchGroup (name : List Char) : List Char → Option (List Char)
  | [] => none
  | c :: ts =>
    match
      (if matchesCI name (c :: ts) then
        colonTail ((c :: ts).drop name.length)
      else none) with
    | some g => some g
    | none => searchGroup name ts

/-- `extract_property` from `generate.py`, with the file content passed
directly: search for the pattern and return the stripped group, or `None`
when there is no match. -/
def extract_property (content property_name : String) : Option String :=
  match searchGroup property_name.toList content.toList with
  | some g => some (String.mk (pyStrip g))
  | none => none

/-- Does the name occur case-insensitively anywhere in the text? -/
def containsCI (name : List Char) : List Char → Bool
  | [] => matchesCI name []
  | c :: ts => matchesCI name (c :: ts) || containsCI name ts

theorem searchGroup_eq_none_of_not_contains (name : List Char) :
    ∀ t, containsCI name t = false → searchGroup name t = none := by
  intro t
  induction t with
  | nil => intro h; rfl
  | cons c ts ih =>
    intro h
    rw [containsCI, Bool.or_eq_false_iff] at h
    rw [searchGroup, if_neg (by rw [h.1]; exact Bool.false_ne_true)]
    exact ih h.2

theorem matchesCI_self_append (name rest : List Char) :
    matchesCI name (name ++ rest) = true := by
  induction name with
  | nil => rfl
  | cons c cs ih =>
    rw [List.cons_append, matchesCI, ih, ciEq]
    simp

theorem searchGroup_skip (name : List Char) :
    ∀ (pre tail : List Char),
      (∀ i, i < pre.length → matchesCI name ((pre ++ tail).drop i) = false) →
      searchGroup name (pre ++ tail) = searchGroup name tail := by
  intro pre
  induction pre with
  | nil => intro tail _; rfl
  | cons p ps ih =>
    intro tail h
    have h0 : matchesCI name (p :: (ps ++ tail)) = false := by
      have := h 0 (by simp)
      simpa using this
    rw [List.cons_append, searchGroup,
      if_neg (by rw [h0]; exact Bool.false_ne_true)]
    exact ih tail (fun i hi => by
      have := h (i + 1) (by simpa using Nat.succ_lt_succ hi)
      simpa using this)

theorem takeWhile_no_newline (u : List Char) (hu : '\n' ∉ u)
    (post : List Char) :
    (u ++ '\n' :: post).takeWhile (fun x => x != '\n') = u := by
  induction u with
  | nil => simp [List.takeWhile_cons]
  | cons c cs ih =>
    have hc : c ≠ '\n' := fun he => hu (he ▸ List.mem_cons_self c cs)
    rw [List.cons_append, List.takeWhile_cons]
    have hbne : (c != '\n') = true := by
      simpa using hc
    rw [hbne]
    simp only [if_true]
    rw [ih (fun hm => hu (List.mem_cons_of_mem c hm))]

theorem wsStarDot_ws_leading (w : List Char)
    (hw : ∀ x ∈ w, isPyWs x = true) (c : Char) (rest : List Char)
    (hc : isPyWs c = false) :
    wsStarDot (w ++ c :: rest) =
      dotPlus (c :: rest) := by
  induction w with
  | nil =>
    rw [List.nil_append, wsStarDot, if_neg (by rw [hc]; exact
      Bool.false_ne_true)]
  | cons x xs ih =>
    rw [List.cons_append, wsStarDot,
      if_pos (hw x (List.mem_cons_self x xs)),
      ih (fun y hy => hw y (List.mem_cons_of_mem x hy))]
    rw [dotPlus]
    have hcn : c ≠ '\n' := by
      intro he
      rw [he] at hc
      exact absurd hc (by rw [isPyWs]; simp)
    rw [if_neg hcn]

theorem dropWhile_exists_cons (v : List Char)
    (hv : ∃ c ∈ v, isPyWs c = false) :
    ∃ c v2, v.dropWhile isPyWs = c :: v2 ∧ isPyWs c = false := by
  induction v with
  | nil =>
    obtain ⟨c, hc, -⟩ := hv
    exact absurd hc (by simp)
  | cons x xs ih =>
    by_cases hx : isPyWs x = true
    · rw [List.dropWhile_cons, if_pos hx]
      apply ih
      obtain ⟨c, hc, hcw⟩ := hv
      rcases List.mem_cons.mp hc with he | hm
      · rw [he] at hcw
        exact absurd hx (by rw [hcw]; exact (Bool.false_ne_true))
      · exact ⟨c, hm, hcw⟩
    · rw [List.dropWhile_cons, if_neg hx]
      exact ⟨x, xs, rfl, Bool.eq_false_iff.mpr hx⟩

theorem searchGroup_head_some (name t g : List Char)
    (hm : matchesCI name t = true)
    (hct : colonTail (t.drop name.length) = some g) :
    searchGroup name t = some g := by
  cases t with
  | nil =>
    rw [List.drop_nil] at hct
    have hnone : colonTail ([] : List Char) = none := rfl
    rw [hnone] at hct
    exact absurd hct (by simp)
  | cons c ts =>
    rw [searchGroup, if_pos hm, hct]

theorem extract_property_positive (pre name v post : List Char)
    (hpre : ∀ i, i < pre.length →
      matchesCI name
        ((pre ++ (name ++ (':' :: ' ' :: v ++ '\n' :: post))).drop i) =
        false)
    (hv : ∃ c ∈ v, isPyWs c = false) (hnl : '\n' ∉ v) :
    searchGroup name (pre ++ (name ++ (':' :: ' ' :: v ++ '\n' :: post))) =
      some (v.dropWhile isPyWs) := by
  obtain ⟨c, v2, hdrop, hcw⟩ := dropWhile_exists_cons v hv
  have hcn : c ≠ '\n' := by
    intro he
    rw [he] at hcw
    exact absurd hcw (by rw [isPyWs]; simp)
  have hnl2 : '\n' ∉ c :: v2 := by
    intro hm
    apply hnl
    have hvdecomp : v = v.takeWhile isPyWs ++ (c :: v2) := by
      conv_lhs =>
        rw [← List.takeWhile_append_dropWhile (p := isPyWs) (l := v)]
      rw [hdrop]
    rw [hvdecomp]
    exact List.mem_append_right _ hm
  have hws : wsStarDot (' ' :: v ++ '\n' :: post) = some (c :: v2) := by
    have hvdecomp : v = v.takeWhile isPyWs ++ (c :: v2) := by
      conv_lhs =>
        rw [← List.takeWhile_append_dropWhile (p := isPyWs) (l := v)]
      rw [hdrop]
    have hshape : ' ' :: v ++ '\n' :: post =
        (' ' :: v.takeWhile isPyWs) ++ c :: (v2 ++ '\n' :: post) := by
      conv_lhs => rw [hvdecomp]
      simp
    rw [hshape, wsStarDot_ws_leading]
    · rw [dotPlus, if_neg hcn]
      congr 1
      have ht := takeWhile_no_newline (c :: v2) hnl2 post
      simpa using ht
    · intro x hx
      rcases List.mem_cons.mp hx with he | hm
      · rw [he]
        rfl
      · exact List.mem_takeWhile_imp hm
    · exact hcw
  rw [searchGroup_skip name pre
    (name ++ (':' :: ' ' :: v ++ '\n' :: post)) hpre]
  apply searchGroup_head_some
  · exact matchesCI_self_append name _
  · rw [List.drop_left, hdrop]
    have hcolon : colonTail (':' :: ' ' :: v ++ '\n' :: post) =
        (match wsStarDot (' ' :: v ++ '\n' :: post) with
         | some g => some g
         | none => wsStarDot (':' :: ' ' :: v ++ '\n' :: post)) := rfl
    rw [hcolon, hws]

/-! ## Template rendering (`modify_and_save_tex`) -/

/-- The opening brace character. -/
def obr : Char := '\x7b'

/-- The closing brace character. -/
def cbr : Char := '\x7d'

/-- A string containing neither brace. -/
abbrev braceFree (l : List Char) : Prop := ∀ x ∈ l, x ≠ obr ∧ x ≠ cbr

/-- The placeholder of a key, as the f-string of the source builds it:
an opening brace, the key, a closing brace. -/
def placeholder (key : List Char) : List Char := obr :: key ++ [cbr]

/-- Python `str.replace`: replace non-overlapping occurrences of `pat`
from left to right.  The guard includes `pat ≠ []` for termination; the
source only ever replaces placeholders, which are never empty. -/
def pyReplace (pat rep : List Char) : List Char → List Char
  | [] => []
  | c :: cs =>
    if pat ≠ [] ∧ pat.isPrefixOf (c :: cs) then
      rep ++ pyReplace pat rep ((c :: cs).drop pat.length)
    else
      c :: pyReplace pat rep cs
termination_by l => l.length
decreasing_by
  · rename_i h
    have hp : 0 < pat.length := List.length_pos.mpr h.1
    simp only [List.length_drop, List.length_cons]
    omega
  · simp only [List.length_cons]
    omega

/-- The replacement loop of `modify_and_save_tex`: fold `str.replace` over
the field mapping in insertion order, each key wrapped in braces. -/
def renderTemplate (template : List Char)
    (fields : List (List Char × List Char)) : List Char :=
  fields.foldl
    (fun content kv => pyReplace (placeholder kv.1) kv.2 content) template

/-- The field whose placeholder starts at this position, if any. -/
def findField (fields : List (List Char × List Char)) (l : List Char) :
    Option (List Char × List Char) :=
  fields.find? (fun kv => (placeholder kv.1).isPrefixOf l)

/-- The renderer as the specification words it: every occurrence of a
placeholder whose name has a field is replaced by that field value,
every other placeholder is left untouched, and all other text is copied
unchanged. -/
def specRender (fields : List (List Char × List Char)) :
    List Char → List Char
  | [] => []
  | c :: cs =>
    if c = obr then
      match findField fields (c :: cs) with
      | some kv => kv.2 ++ specRender fields ((c :: cs).drop (kv.1.length + 2))
      | none => c :: specRender fields cs
    else c :: specRender fields cs
termination_by l => l.length
decreasing_by
  all_goals simp only [List.length_drop, List.length_cons]
  all_goals omega

/-- Templates in which every opening brace starts a well-formed
brace-free-named placeholder. -/
def wfTemplate : List Char → Bool
  | [] => true
  | c :: cs =>
    if c = obr then
      match hdw : cs.dropWhile (fun x => x != cbr && x != obr) with
      | d :: rest => if d = cbr then wfTemplate rest else false
      | [] => false
    else wfTemplate cs
termination_by l => l.length
decreasing_by
  · have hle := (List.dropWhile_suffix
      (fun x => x != cbr && x != obr) (l := cs)).length_le
    rw [hdw] at hle
    simp only [List.length_cons] at hle ⊢
    omega
  · simp only [List.length_cons]
    omega

theorem dropWhile_append_all {p : α → Bool} (w : List α)
    (hw : ∀ x ∈ w, p x = true) (r : List α) :
    (w ++ r).dropWhile p = r.dropWhile p := by
  induction w with
  | nil => rfl
  | cons x xs ih =>
    rw [List.cons_append, List.dropWhile_cons,
      if_pos (hw x (List.mem_cons_self x xs))]
    exact ih (fun y hy => hw y (List.mem_cons_of_mem x hy))

theorem obr_ne_cbr : obr ≠ cbr := by decide

theorem wfTemplate_nil : wfTemplate [] = true := by
  rw [wfTemplate]

theorem wfTemplate_cons_not_obr (c : Char) (cs : List Char) (h : c ≠ obr) :
    wfTemplate (c :: cs) = wfTemplate cs := by
  rw [wfTemplate, if_neg h]

theorem wfTemplate_open (w rest : List Char) (hw : braceFree w) :
    wfTemplate (obr :: (w ++ cbr :: rest)) = wfTemplate rest := by
  rw [wfTemplate, if_pos rfl]
  have hdw : (w ++ cbr :: rest).dropWhile (fun x => x != cbr && x != obr) =
      cbr :: rest := by
    rw [dropWhile_append_all w ?hall (cbr :: rest), List.dropWhile_cons,
      if_neg (by simp)]
    case hall =>
      intro x hx
      have := hw x hx
      simp only [bne_iff_ne, ne_eq, Bool.and_eq_true, decide_eq_true_eq]
      exact ⟨this.2, this.1⟩
  rw [hdw]
  dsimp only
  rw [if_pos rfl]

theorem wf_open_destruct (cs : List Char)
    (h : wfTemplate (obr :: cs) = true) :
    ∃ w rest, cs = w ++ cbr :: rest ∧ braceFree w ∧
      wfTemplate rest = true := by
  rw [wfTemplate, if_pos rfl] at h
  cases hdw : cs.dropWhile (fun x => x != cbr && x != obr) with
  | nil =>
    rw [hdw] at h
    exact absurd h (by simp)
  | cons d rest =>
    rw [hdw] at h
    dsimp only at h
    by_cases hd : d = cbr
    · rw [if_pos hd] at h
      refine ⟨cs.takeWhile (fun x => x != cbr && x != obr), rest, ?_, ?_, h⟩
      · conv_lhs => rw [← List.takeWhile_append_dropWhile
          (p := fun x => x != cbr && x != obr) (l := cs)]
        rw [hdw, hd]
      · intro x hx
        have := List.mem_takeWhile_imp hx
        simp only [bne_iff_ne, ne_eq, Bool.and_eq_true, decide_eq_true_eq]
          at this
        exact ⟨this.2, this.1⟩
    · rw [if_neg hd] at h
      exact absurd h (by simp)

theorem pyReplace_nil (pat rep : List Char) : pyReplace pat rep [] = [] := by
  rw [pyReplace]

theorem pyReplace_cons_pos (pat rep : List Char) (c : Char) (cs : List Char)
    (hne : pat ≠ []) (hp : pat.isPrefixOf (c :: cs) = true) :
    pyReplace pat rep (c :: cs) =
      rep ++ pyReplace pat rep ((c :: cs).drop pat.length) := by
  rw [pyReplace, if_pos ⟨hne, hp⟩]

theorem pyReplace_cons_neg (pat rep : List Char) (c : Char) (cs : List Char)
    (hp : ¬ (pat ≠ [] ∧ pat.isPrefixOf (c :: cs) = true)) :
    pyReplace pat rep (c :: cs) = c :: pyReplace pat rep cs := by
  rw [pyReplace, if_neg hp]

theorem placeholder_ne_nil (k : List Char) : placeholder k ≠ [] := by
  rw [placeholder]
  simp

theorem pyReplace_seg (k rep seg : List Char)
    (hseg : ∀ x ∈ seg, x ≠ obr) (r : List Char) :
    pyReplace (placeholder k) rep (seg ++ r) =
      seg ++ pyReplace (placeholder k) rep r := by
  induction seg with
  | nil => rfl
  | cons c cs ih =>
    rw [List.cons_append, pyReplace_cons_neg _ _ _ _ ?hcon,
      ih (fun y hy => hseg y (List.mem_cons_of_mem c hy)),
      List.cons_append]
    case hcon =>
      intro hcon
      have hpre := hcon.2
      rw [placeholder] at hpre
      obtain ⟨t, ht⟩ := List.isPrefixOf_iff_prefix.mp hpre
      rw [List.cons_append] at ht
      have hc : obr = c := by
        have hh := congrArg (fun l => l.headD ' ') ht
        simpa using hh
      exact hseg c (List.mem_cons_self c cs) hc.symm

theorem specRender_nil_tpl (fields : List (List Char × List Char)) :
    specRender fields [] = [] := by
  rw [specRender]

theorem specRender_cons_not_obr (fields : List (List Char × List Char))
    (c : Char) (cs : List Char) (hc : c ≠ obr) :
    specRender fields (c :: cs) = c :: specRender fields cs := by
  rw [specRender, if_neg hc]

theorem specRender_cons_obr_some (fields : List (List Char × List Char))
    (cs : List Char) (kv : List Char × List Char)
    (hf : findField fields (obr :: cs) = some kv) :
    specRender fields (obr :: cs) =
      kv.2 ++ specRender fields ((obr :: cs).drop (kv.1.length + 2)) := by
  rw [specRender, if_pos rfl, hf]

theorem specRender_cons_obr_none (fields : List (List Char × List Char))
    (cs : List Char) (hf : findField fields (obr :: cs) = none) :
    specRender fields (obr :: cs) = obr :: specRender fields cs := by
  rw [specRender, if_pos rfl, hf]

theorem specRender_seg (fields : List (List Char × List Char))
    (seg : List Char) (hseg : ∀ x ∈ seg, x ≠ obr) (r : List Char) :
    specRender fields (seg ++ r) = seg ++ specRender fields r := by
  induction seg with
  | nil => rfl
  | cons c cs ih =>
    rw [List.cons_append,
      specRender_cons_not_obr fields c _ (hseg c (List.mem_cons_self c cs)),
      ih (fun y hy => hseg y (List.mem_cons_of_mem c hy)),
      List.cons_append]

theorem specRender_no_fields (t : List Char) : specRender [] t = t := by
  induction t with
  | nil => exact specRender_nil_tpl []
  | cons c cs ih =>
    by_cases hc : c = obr
    · subst hc
      rw [specRender_cons_obr_none [] cs rfl, ih]
    · rw [specRender_cons_not_obr [] c cs hc, ih]

theorem append_cbr_prefix_iff (u : List Char) :
    ∀ (w rest : List Char), braceFree u → braceFree w →
      (u ++ [cbr] <+: w ++ cbr :: rest ↔ u = w) := by
  induction u with
  | nil =>
    intro w rest _ hw
    cases w with
    | nil => simp
    | cons x w2 =>
      simp only [List.nil_append, List.cons_append, List.cons_prefix_cons]
      constructor
      · rintro ⟨he, -⟩
        exact absurd he.symm (hw x (List.mem_cons_self x w2)).2
      · intro he
        exact absurd he (by simp)
  | cons a u2 ih =>
    intro w rest hu hw
    cases w with
    | nil =>
      simp only [List.nil_append, List.cons_append, List.cons_prefix_cons]
      constructor
      · rintro ⟨he, -⟩
        exact absurd he (hu a (List.mem_cons_self a u2)).2
      · intro he
        exact absurd he (by simp)
    | cons x w2 =>
      simp only [List.cons_append, List.cons_prefix_cons]
      rw [ih w2 rest (fun y hy => hu y (List.mem_cons_of_mem a hy))
        (fun y hy => hw y (List.mem_cons_of_mem x hy))]
      constructor
      · rintro ⟨h1, h2⟩
        rw [h1, h2]
      · intro he
        injection he with h1 h2
        exact ⟨h1, h2⟩

theorem placeholder_prefix_iff (u w rest : List Char)
    (hu : braceFree u) (hw : braceFree w) :
    ((placeholder u).isPrefixOf (obr :: (w ++ cbr :: rest)) = true ↔
      u = w) := by
  rw [List.isPrefixOf_iff_prefix, placeholder, List.cons_append,
    List.cons_prefix_cons]
  rw [append_cbr_prefix_iff u w rest hu hw]
  simp

theorem drop_placeholder (u rest : List Char) :
    (obr :: (u ++ cbr :: rest)).drop (u.length + 2) = rest := by
  have hshape : obr :: (u ++ cbr :: rest) = (obr :: (u ++ [cbr])) ++ rest :=
    by simp
  have hlen : (obr :: (u ++ [cbr])).length = u.length + 2 := by simp
  rw [hshape, ← hlen, List.drop_left]

theorem find?_congr_mem {p q : α → Bool} :
    ∀ (l : List α), (∀ x ∈ l, p x = q x) → l.find? p = l.find? q := by
  intro l
  induction l with
  | nil => intro _; rfl
  | cons a l2 ih =>
    intro h
    rw [List.find?_cons, List.find?_cons, h a (List.mem_cons_self a l2)]
    cases hqa : q a
    · dsimp only
      exact ih (fun y hy => h y (List.mem_cons_of_mem a hy))
    · rfl

theorem findField_open (fields : List (List Char × List Char))
    (hf : ∀ kv ∈ fields, braceFree kv.1) (w rest : List Char)
    (hw : braceFree w) :
    findField fields (obr :: (w ++ cbr :: rest)) =
      fields.find? (fun kv => kv.1 == w) := by
  rw [findField]
  apply find?_congr_mem
  intro kv hkv
  have hiff := placeholder_prefix_iff kv.1 w rest (hf kv hkv) hw
  by_cases he : kv.1 = w
  · rw [hiff.mpr he, (beq_iff_eq.mpr he : (kv.1 == w) = true)]
  · have h1 : (kv.1 == w) = false := by
      rw [Bool.eq_false_iff]
      intro hT
      exact he (beq_iff_eq.mp hT)
    have h2 : (placeholder kv.1).isPrefixOf (obr :: (w ++ cbr :: rest)) =
        false := by
      rw [Bool.eq_false_iff]
      intro hT
      exact he (hiff.mp hT)
    rw [h1, h2]

theorem placeholder_no_match_at (k : List Char) (c : Char) (cs : List Char)
    (hc : c ≠ obr) :
    ¬ (placeholder k ≠ [] ∧
        (placeholder k).isPrefixOf (c :: cs) = true) := by
  rintro ⟨-, hpre⟩
  rw [placeholder] at hpre
  obtain ⟨t, ht⟩ := List.isPrefixOf_iff_prefix.mp hpre
  rw [List.cons_append] at ht
  have hh := congrArg (fun l => l.headD ' ') ht
  simp only [List.headD_cons] at hh
  exact hc hh.symm

theorem wfTemplate_seg (seg : List Char) (hseg : ∀ x ∈ seg, x ≠ obr)
    (r : List Char) : wfTemplate (seg ++ r) = wfTemplate r := by
  induction seg with
  | nil => rfl
  | cons c cs ih =>
    rw [List.cons_append,
      wfTemplate_cons_not_obr c _ (hseg c (List.mem_cons_self c cs)),
      ih (fun y hy => hseg y (List.mem_cons_of_mem c hy))]

theorem length_placeholder (k : List Char) :
    (placeholder k).length = k.length + 2 := by
  rw [placeholder]
  simp

theorem wfTemplate_pyReplace_aux (k v : List Char) (hk : braceFree k)
    (hv : braceFree v) :
    ∀ (n : Nat) (t : List Char), t.length ≤ n → wfTemplate t = true →
      wfTemplate (pyReplace (placeholder k) v t) = true := by
  intro n
  induction n with
  | zero =>
    intro t hlen hwf
    have ht : t = [] := List.length_eq_zero.mp (Nat.le_zero.mp hlen)
    subst ht
    rw [pyReplace_nil]
    exact wfTemplate_nil
  | succ n ih =>
    intro t hlen hwf
    match t with
    | [] =>
      rw [pyReplace_nil]
      exact wfTemplate_nil
    | c :: cs =>
      have hlcs : cs.length ≤ n := by
        simp only [List.length_cons] at hlen
        omega
      by_cases hc : c = obr
      · subst hc
        obtain ⟨w, rest, hcs, hw, hwfrest⟩ := wf_open_destruct cs hwf
        subst hcs
        have hlrest : rest.length ≤ n := by
          simp only [List.length_append, List.length_cons] at hlcs
          omega
        by_cases hkw : k = w
        · rw [pyReplace_cons_pos (placeholder k) v obr _
            (placeholder_ne_nil k)
            ((placeholder_prefix_iff k w rest hk hw).mpr hkw)]
          subst hkw
          rw [length_placeholder, drop_placeholder k rest,
            wfTemplate_seg v (fun x hx => (hv x hx).1) _]
          exact ih rest hlrest hwfrest
        · rw [pyReplace_cons_neg _ _ _ _ (by
            rintro ⟨-, hpre⟩
            exact hkw ((placeholder_prefix_iff k w rest hk hw).mp hpre))]
          have hshape : w ++ cbr :: rest = (w ++ [cbr]) ++ rest := by simp
          have hseg2 : ∀ x ∈ w ++ [cbr], x ≠ obr := by
            intro x hx
            rcases List.mem_append.mp hx with h1 | h1
            · exact (hw x h1).1
            · rw [List.mem_singleton] at h1
              rw [h1]
              exact Ne.symm obr_ne_cbr
          rw [hshape, pyReplace_seg k v (w ++ [cbr]) hseg2 rest]
          have hshape2 : (w ++ [cbr]) ++ pyReplace (placeholder k) v rest =
              w ++ cbr :: pyReplace (placeholder k) v rest := by simp
          rw [hshape2, wfTemplate_open w _ hw]
          exact ih rest hlrest hwfrest
      · rw [pyReplace_cons_neg _ _ _ _ (placeholder_no_match_at k c cs hc),
          wfTemplate_cons_not_obr c _ hc]
        apply ih cs hlcs
        rwa [wfTemplate_cons_not_obr c cs hc] at hwf

theorem wfTemplate_pyReplace (k v : List Char) (hk : braceFree k)
    (hv : braceFree v) (t : List Char) (hwf : wfTemplate t = true) :
    wfTemplate (pyReplace (placeholder k) v t) = true :=
  wfTemplate_pyReplace_aux k v hk hv t.length t le_rfl hwf

theorem specRender_step_aux (k v : List Char) (hk : braceFree k)
    (hv : braceFree v) (fs : List (List Char × List Char))
    (hfs : ∀ kv ∈ fs, braceFree kv.1) :
    ∀ (n : Nat) (t : List Char), t.length ≤ n → wfTemplate t = true →
      specRender ((k, v) :: fs) t =
        specRender fs (pyReplace (placeholder k) v t) := by
  intro n
  induction n with
  | zero =>
    intro t hlen _
    have ht : t = [] := List.length_eq_zero.mp (Nat.le_zero.mp hlen)
    subst ht
    rw [pyReplace_nil, specRender_nil_tpl, specRender_nil_tpl]
  | succ n ih =>
    intro t hlen hwf
    match t with
    | [] => rw [pyReplace_nil, specRender_nil_tpl, specRender_nil_tpl]
    | c :: cs =>
      have hlcs : cs.length ≤ n := by
        simp only [List.length_cons] at hlen
        omega
      by_cases hc : c = obr
      · subst hc
        obtain ⟨w, rest, hcs, hw, hwfrest⟩ := wf_open_destruct cs hwf
        subst hcs
        have hlrest : rest.length ≤ n := by
          simp only [List.length_append, List.length_cons] at hlcs
          omega
        have hkeys : ∀ kv ∈ (k, v) :: fs, braceFree kv.1 := by
          intro kv hkv
          rcases List.mem_cons.mp hkv with he | hm
          · rw [he]
            exact hk
          · exact hfs kv hm
        have hffL := findField_open ((k, v) :: fs) hkeys w rest hw
        by_cases hkw : k = w
        · subst hkw
          have hfind : ((k, v) :: fs).find? (fun kv => kv.1 == k) =
              some (k, v) := by
            rw [List.find?_cons]
            simp
          rw [specRender_cons_obr_some _ _ (k, v) (hffL.trans hfind)]
          dsimp only
          rw [drop_placeholder k rest]
          rw [pyReplace_cons_pos _ _ _ _ (placeholder_ne_nil k)
            ((placeholder_prefix_iff k k rest hk hw).mpr rfl)]
          rw [length_placeholder, drop_placeholder k rest]
          rw [specRender_seg fs v (fun x hx => (hv x hx).1) _]
          rw [ih rest hlrest hwfrest]
        · have hkwb : (k == w) = false := by
            rw [Bool.eq_false_iff]
            intro hT
            exact hkw (beq_iff_eq.mp hT)
          have hfindL : ((k, v) :: fs).find? (fun kv => kv.1 == w) =
              fs.find? (fun kv => kv.1 == w) := by
            rw [List.find?_cons]
            dsimp only
            rw [hkwb]
          rw [pyReplace_cons_neg _ _ _ _ (by
            rintro ⟨-, hpre⟩
            exact hkw ((placeholder_prefix_iff k w rest hk hw).mp hpre))]
          have hseg2 : ∀ x ∈ w ++ [cbr], x ≠ obr := by
            intro x hx
            rcases List.mem_append.mp hx with h1 | h1
            · exact (hw x h1).1
            · rw [List.mem_singleton] at h1
              rw [h1]
              exact Ne.symm obr_ne_cbr
          have hshape : w ++ cbr :: rest = (w ++ [cbr]) ++ rest := by simp
          have hshape2 : (w ++ [cbr]) ++ pyReplace (placeholder k) v rest =
              w ++ cbr :: pyReplace (placeholder k) v rest := by simp
          have hRHS : pyReplace (placeholder k) v (w ++ cbr :: rest) =
              w ++ cbr :: pyReplace (placeholder k) v rest := by
            rw [hshape, pyReplace_seg k v (w ++ [cbr]) hseg2 rest, hshape2]
          rw [hRHS]
          have hffR := findField_open fs hfs w
            (pyReplace (placeholder k) v rest) hw
          cases hff : fs.find? (fun kv => kv.1 == w) with
          | some kv2 =>
            have hp := List.find?_some hff
            have hk2 : kv2.1 = w := beq_iff_eq.mp (by simpa using hp)
            rw [specRender_cons_obr_some ((k, v) :: fs) _ kv2
              (hffL.trans (hfindL.trans hff))]
            rw [specRender_cons_obr_some fs _ kv2 (hffR.trans hff)]
            rw [hk2, drop_placeholder w rest,
              drop_placeholder w (pyReplace (placeholder k) v rest)]
            rw [ih rest hlrest hwfrest]
          | none =>
            rw [specRender_cons_obr_none ((k, v) :: fs) _
              (hffL.trans (hfindL.trans hff))]
            rw [specRender_cons_obr_none fs _ (hffR.trans hff)]
            have hwno : ∀ x ∈ w, x ≠ obr := fun x hx => (hw x hx).1
            rw [specRender_seg ((k, v) :: fs) w hwno (cbr :: rest)]
            rw [specRender_seg fs w hwno
              (cbr :: pyReplace (placeholder k) v rest)]
            rw [specRender_cons_not_obr ((k, v) :: fs) cbr rest
              (Ne.symm obr_ne_cbr)]
            rw [specRender_cons_not_obr fs cbr _ (Ne.symm obr_ne_cbr)]
            rw [ih rest hlrest hwfrest]
      · rw [specRender_cons_not_obr _ c cs hc]
        rw [pyReplace_cons_neg _ _ _ _ (placeholder_no_match_at k c cs hc)]
        rw [specRender_cons_not_obr fs c _ hc]
        rw [ih cs hlcs (by rwa [wfTemplate_cons_not_obr c cs hc] at hwf)]

theorem renderTemplate_eq_specRender_core
    (fields : List (List Char × List Char))
    (hfields : ∀ kv ∈ fields, braceFree kv.1 ∧ braceFree kv.2) :
    ∀ (t : List Char), wfTemplate t = true →
      renderTemplate t fields = specRender fields t := by
  induction fields with
  | nil =>
    intro t _
    rw [renderTemplate, List.foldl_nil, specRender_no_fields]
  | cons kv fs ih =>
    intro t hwf
    obtain ⟨k, v⟩ := kv
    have hk : braceFree k := (hfields (k, v) (List.mem_cons_self _ _)).1
    have hv : braceFree v := (hfields (k, v) (List.mem_cons_self _ _)).2
    have hfs : ∀ kv2 ∈ fs, braceFree kv2.1 ∧ braceFree kv2.2 :=
      fun kv2 h2 => hfields kv2 (List.mem_cons_of_mem _ h2)
    rw [renderTemplate, List.foldl_cons]
    have hstep := specRender_step_aux k v hk hv fs
      (fun kv2 h2 => (hfs kv2 h2).1) t.length t le_rfl hwf
    dsimp only
    rw [← renderTemplate, ih hfs (pyReplace (placeholder k) v t)
      (wfTemplate_pyReplace k v hk hv t hwf), ← hstep]

end CertGen

/-- C2: for every (space-free, e.g. hexadecimal) string `s`,
`split_and_format_hash s` splits `s` at the floor-division midpoint, formats
each half with a space after every 4 characters, and removing the inserted
spaces from the two formatted halves and concatenating them reconstructs
`s` exactly; the de-formatted first half has length `⌊|s|/2⌋` and the
second `|s| - ⌊|s|/2⌋`, so for odd lengths the first half is one character
shorter. -/
theorem claim_C2_display_split_roundtrip (s : List Char) (hs : ' ' ∉ s) :
    CertGen.removeSpaces (CertGen.split_and_format_hash s).1 ++
      CertGen.removeSpaces (CertGen.split_and_format_hash s).2 = s ∧
    (CertGen.removeSpaces (CertGen.split_and_format_hash s).1).length =
      s.length / 2 ∧
    (CertGen.removeSpaces (CertGen.split_and_format_hash s).2).length =
      s.length - s.length / 2 := by
  have htake : ' ' ∉ s.take (s.length / 2) := fun hmem =>
    hs (List.mem_of_mem_take hmem)
  have hdrop : ' ' ∉ s.drop (s.length / 2) := fun hmem =>
    hs (List.mem_of_mem_drop hmem)
  have e1 : CertGen.removeSpaces (CertGen.split_and_format_hash s).1 =
      s.take (s.length / 2) :=
    CertGen.removeSpaces_format_hash _ htake
  have e2 : CertGen.removeSpaces (CertGen.split_and_format_hash s).2 =
      s.drop (s.length / 2) :=
    CertGen.removeSpaces_format_hash _ hdrop
  refine ⟨?_, ?_, ?_⟩
  · rw [e1, e2, List.take_append_drop]
  · rw [e1, List.length_take]
    omega
  · rw [e2, List.length_drop]

/-- Witness for C2 at the odd-length hex string `"deadbeef0"`. -/
theorem claim_C2_display_split_roundtrip_witness :
    ' ' ∉ "deadbeef0".toList ∧
    (CertGen.removeSpaces (CertGen.split_and_format_hash "deadbeef0".toList).1 ++
       CertGen.removeSpaces (CertGen.split_and_format_hash "deadbeef0".toList).2 =
       "deadbeef0".toList ∧
     (CertGen.removeSpaces (CertGen.split_and_format_hash "deadbeef0".toList).1).length =
       "deadbeef0".toList.length / 2 ∧
     (CertGen.removeSpaces (CertGen.split_and_format_hash "deadbeef0".toList).2).length =
       "deadbeef0".toList.length - "deadbeef0".toList.length / 2) :=
  ⟨by decide, claim_C2_display_split_roundtrip "deadbeef0".toList (by decide)⟩

/-- C6: `format_date` maps every string that `strptime("%Y-%m-%d")` accepts
to the day without leading zero, the correct English ordinal suffix per the
table of the specification, a space, the full month name, a comma-space, and the
year; in particular `"2024-01-04" ↦ "4th January, 2024"`,
`"2024-01-21" ↦ "21st January, 2024"`, `"2024-01-23" ↦ "23rd January, 2024"`. -/
theorem claim_C6_format_date :
    CertGen.format_date "2024-01-04" = some "4th January, 2024" ∧
    CertGen.format_date "2024-01-21" = some "21st January, 2024" ∧
    CertGen.format_date "2024-01-23" = some "23rd January, 2024" ∧
    ∀ s y m d, CertGen.strptimeYMD s = some (y, m, d) →
      CertGen.format_date s =
        some (toString d ++ CertGen.claimOrdinalSuffix d ++ " " ++
          CertGen.monthName m ++ ", " ++ toString y) := by
  refine ⟨by rfl, by rfl, by rfl, ?_⟩
  intro s y m d h
  have hb := CertGen.strptimeYMD_day_bounds s y m d h
  rw [CertGen.format_date, h]
  dsimp only
  rw [CertGen.daySuffix_eq_claim d hb.1 hb.2]

/-- Witness for the general clause of C6 at the date `2024-03-15`. -/
theorem claim_C6_format_date_witness :
    CertGen.format_date "2024-03-15" =
      some (toString 15 ++ CertGen.claimOrdinalSuffix 15 ++ " " ++
        CertGen.monthName 3 ++ ", " ++ toString 2024) :=
  claim_C6_format_date.2.2.2 "2024-03-15" 2024 3 15 (by rfl)

/-- C4: `is_ots_done` is total and non-raising: for every environment it
returns a normal boolean (`Except.ok`); the result is `true` exactly when
both tool invocations exit zero and the verify stderr contains a phrase of
the form Bitcoin block digits; it is `false` whenever any tool invocation
exits non-zero, and whenever the output lacks such a phrase. -/
theorem claim_C4_is_ots_done_total (env : CertGen.OtsEnv) :
    (∃ b, CertGen.is_ots_done env = .ok b) ∧
    (CertGen.is_ots_done env = .ok true ↔
      env.upgradeExit = 0 ∧ env.verifyExit = 0 ∧
        CertGen.hasBlockPhrase env.verifyStderr) ∧
    ((env.upgradeExit ≠ 0 ∨ env.verifyExit ≠ 0) →
      CertGen.is_ots_done env = .ok false) ∧
    (¬ CertGen.hasBlockPhrase env.verifyStderr →
      CertGen.is_ots_done env = .ok false) := by
  by_cases hu : env.upgradeExit = 0 <;> by_cases hv : env.verifyExit = 0
  · have hrun : CertGen.is_ots_done env =
        .ok (CertGen.findBlockHeight env.verifyStderr.toList).isSome := by
      simp [CertGen.is_ots_done, CertGen.runChecked, hu, hv, Except.bind]
    refine ⟨⟨_, hrun⟩, ?_, ?_, ?_⟩
    · rw [hrun, CertGen.hasBlockPhrase_iff]
      constructor
      · intro h
        injection h with h1
        exact ⟨hu, hv, h1⟩
      · rintro ⟨-, -, hp⟩
        rw [hp]
    · intro h
      rcases h with h | h
      · exact absurd hu h
      · exact absurd hv h
    · intro hnp
      have hfalse :
          (CertGen.findBlockHeight env.verifyStderr.toList).isSome = false := by
        rw [Bool.eq_false_iff]
        intro h
        exact hnp ((CertGen.hasBlockPhrase_iff _).mpr h)
      rw [hrun, hfalse]
  all_goals {
    have hrun : CertGen.is_ots_done env = .ok false := by
      simp [CertGen.is_ots_done, CertGen.runChecked, hu, hv, Except.bind]
    refine ⟨⟨false, hrun⟩, ?_, fun _ => hrun, fun _ => hrun⟩
    rw [hrun]
    constructor
    · intro h
      have hfb : (false : Bool) = true := by injection h
      exact absurd hfb (by simp)
    · rintro ⟨h1, h2, -⟩
      first
      | exact absurd h1 hu
      | exact absurd h2 hv
  }

/-- Witness for C4: with a failing `ots upgrade` (exit code 1) the poll
returns a normal `false`. -/
theorem claim_C4_is_ots_done_total_witness :
    CertGen.is_ots_done ⟨"cert.txt.ots", "asi0", "asi0", 1, 0, "", 0, ""⟩ =
      .ok false :=
  (claim_C4_is_ots_done_total
    ⟨"cert.txt.ots", "asi0", "asi0", 1, 0, "", 0, ""⟩).2.2.1
    (Or.inl (by decide))

/-- C3 counterexample: the claim says `get_ots_blockhash` signals an error
(fails) whenever the confirming block height cannot be parsed from the
verify output.  In the code both `except` clauses return normally: with
both `ots` commands succeeding and a verify stderr lacking any block-height
phrase, the call returns `Except.ok` with a sentinel message string — the
same channel as a successful block-header lookup — rather than signalling
any error. -/
theorem claim_C3_counterexample :
    CertGen.findBlockHeight
      "Pending confirmation in Bitcoin blockchain".toList = none ∧
    CertGen.get_ots_blockhash
      ⟨"cert.txt.ots", "asi0", "asi0", 0, 0,
        "Pending confirmation in Bitcoin blockchain", 0, ""⟩ =
      Except.ok "Block height not found in OTS verification output" := by
  constructor
  · decide
  · rfl

/-- C3 amended: `get_ots_blockhash` never raises; it always returns a
normal string.  When the block height cannot be parsed it returns the fixed
message `"Block height not found in OTS verification output"`; when any
tool invocation exits non-zero it returns `"Failed to process: "` followed
by the exception text; the stripped remote-lookup output is returned only
when every step succeeds. -/
theorem claim_C3_amended_blockhash (env : CertGen.OtsEnv) :
    (∃ s, CertGen.get_ots_blockhash env = .ok s) ∧
    (env.upgradeExit = 0 → env.verifyExit = 0 →
      CertGen.findBlockHeight env.verifyStderr.toList = none →
      CertGen.get_ots_blockhash env =
        .ok "Block height not found in OTS verification output") ∧
    (∀ hgt, env.upgradeExit = 0 → env.verifyExit = 0 →
      CertGen.findBlockHeight env.verifyStderr.toList = some hgt →
      env.curlExit ≠ 0 →
      CertGen.get_ots_blockhash env =
        .ok ("Failed to process: " ++
          CertGen.cpeMessage (CertGen.curlCommand (String.mk hgt))
            env.curlExit)) ∧
    ((env.upgradeExit ≠ 0 ∨ env.verifyExit ≠ 0) →
      ∃ e, CertGen.get_ots_blockhash env = .ok ("Failed to process: " ++ e)) ∧
    (∀ hgt, env.upgradeExit = 0 → env.verifyExit = 0 →
      CertGen.findBlockHeight env.verifyStderr.toList = some hgt →
      env.curlExit = 0 →
      CertGen.get_ots_blockhash env =
        .ok (String.mk (CertGen.pyStrip env.curlStdout.toList))) := by
  by_cases hu : env.upgradeExit = 0 <;> by_cases hv : env.verifyExit = 0
  · cases hf : CertGen.findBlockHeight env.verifyStderr.toList with
    | none =>
      have hf2 : CertGen.findBlockHeight env.verifyStderr.data = none := hf
      have hres : CertGen.get_ots_blockhash env =
          .ok "Block height not found in OTS verification output" := by
        simp [CertGen.get_ots_blockhash, CertGen.runChecked, hu, hv, hf2,
          Except.bind]
      refine ⟨⟨_, hres⟩, fun _ _ _ => hres, ?_, ?_, ?_⟩
      · intro hgt _ _ hsome _
        exact absurd hsome (by simp)
      · intro h
        rcases h with h | h
        · exact absurd hu h
        · exact absurd hv h
      · intro hgt _ _ hsome _
        exact absurd hsome (by simp)
    | some hgt0 =>
      have hf2 : CertGen.findBlockHeight env.verifyStderr.data = some hgt0 :=
        hf
      by_cases hc : env.curlExit = 0
      · have hres : CertGen.get_ots_blockhash env =
            .ok (String.mk (CertGen.pyStrip env.curlStdout.toList)) := by
          simp [CertGen.get_ots_blockhash, CertGen.runChecked, hu, hv, hf2,
            hc, Except.bind]
        refine ⟨⟨_, hres⟩, ?_, ?_, ?_, fun _ _ _ _ _ => hres⟩
        · intro _ _ hnone
          exact absurd hnone (by simp)
        · intro hgt _ _ _ hcurl
          exact absurd hc hcurl
        · intro h
          rcases h with h | h
          · exact absurd hu h
          · exact absurd hv h
      · have hres : CertGen.get_ots_blockhash env =
            .ok ("Failed to process: " ++
              CertGen.cpeMessage (CertGen.curlCommand (String.mk hgt0))
                env.curlExit) := by
          simp [CertGen.get_ots_blockhash, CertGen.runChecked, hu, hv, hf2,
            hc, Except.bind, String.mk]
        refine ⟨⟨_, hres⟩, ?_, ?_, ?_, ?_⟩
        · intro _ _ hnone
          exact absurd hnone (by simp)
        · intro hgt _ _ hsome _
          injection hsome with heq
          rw [← heq]
          exact hres
        · intro h
          rcases h with h | h
          · exact absurd hu h
          · exact absurd hv h
        · intro hgt _ _ _ hcurl
          exact absurd hcurl hc
  all_goals {
    first
    | (have hres : CertGen.get_ots_blockhash env =
          .ok ("Failed to process: " ++
            CertGen.cpeMessage (CertGen.upgradeCommand env)
              env.upgradeExit) := by
        simp [CertGen.get_ots_blockhash, CertGen.runChecked, hu, hv,
          Except.bind])
    | (have hres : CertGen.get_ots_blockhash env =
          .ok ("Failed to process: " ++
            CertGen.cpeMessage (CertGen.verifyCommand env)
              env.verifyExit) := by
        simp [CertGen.get_ots_blockhash, CertGen.runChecked, hu, hv,
          Except.bind])
    refine ⟨⟨_, hres⟩, ?_, ?_, fun _ => ⟨_, hres⟩, ?_⟩
    · intro h1 h2 _
      first
      | exact absurd h1 hu
      | exact absurd h2 hv
    · intro _ h1 h2 _ _
      first
      | exact absurd h1 hu
      | exact absurd h2 hv
    · intro _ h1 h2 _ _
      first
      | exact absurd h1 hu
      | exact absurd h2 hv
  }

/-- Witness for C3 amended, on the fully successful path: the resolver
returns the stripped curl output. -/
theorem claim_C3_amended_blockhash_witness :
    CertGen.get_ots_blockhash
      ⟨"cert.txt.ots", "asi0", "asi0", 0, 0,
        "Success! Bitcoin block 840000 attests existence as of 2024-04-20",
        0, " 0000000000000abc\n"⟩ = .ok "0000000000000abc" := by
  have h := (claim_C3_amended_blockhash
    ⟨"cert.txt.ots", "asi0", "asi0", 0, 0,
      "Success! Bitcoin block 840000 attests existence as of 2024-04-20",
      0, " 0000000000000abc\n"⟩).2.2.2.2 "840000".toList rfl rfl (by decide)
    rfl
  rw [h]
  rfl

/-- C5: `compute_sha256`, which folds the content through the hash object
in 4096-byte chunks, yields exactly the SHA-256 hex digest of the full byte
stream in one pass; and it is deterministic — identical byte content always
yields the identical digest. -/
theorem claim_C5_digest_chunked_equivalence (content : List Nat) :
    CertGen.compute_sha256 content = CertGen.sha256hex content ∧
    ∀ content2, content2 = content →
      CertGen.compute_sha256 content2 = CertGen.compute_sha256 content := by
  constructor
  · rw [CertGen.compute_sha256, CertGen.foldl_hashlibUpdate,
      List.nil_append, CertGen.join_chunksOf 4096 (by omega)]
  · intro content2 h
    rw [h]

/-- Witness for C5 at the byte content of `"abc"`. -/
theorem claim_C5_digest_chunked_equivalence_witness :
    CertGen.compute_sha256 [97, 98, 99] = CertGen.sha256hex [97, 98, 99] ∧
    CertGen.compute_sha256 [97, 98, 99] =
      CertGen.compute_sha256 [97, 98, 99] :=
  ⟨(claim_C5_digest_chunked_equivalence [97, 98, 99]).1,
   (claim_C5_digest_chunked_equivalence [97, 98, 99]).2 [97, 98, 99] rfl⟩

/-- C9: `move_files_to_final` moves each of the three named files that
exists on disk into the archive directory; each missing file produces a
warning, does not stop the loop or undo earlier moves, and the call still
returns `True`; the call returns `False` exactly when some existing file
raises during its move — and a file moved before the failure stays moved. -/
theorem claim_C9_move_files_to_final (env : CertGen.MoveEnv)
    (a b c : String) :
    ((∀ f ∈ [a, b, c], env.moveRaises f = false) →
      CertGen.move_files_to_final env a b c =
        ⟨true, [a, b, c].filter env.onDisk,
          [a, b, c].filter (fun f => !env.onDisk f)⟩) ∧
    ((CertGen.move_files_to_final env a b c).ok = false ↔
      ∃ f ∈ [a, b, c], env.onDisk f = true ∧ env.moveRaises f = true) ∧
    (env.onDisk a = true → env.moveRaises a = false →
      a ∈ (CertGen.move_files_to_final env a b c).moved) := by
  refine ⟨?_, ?_, ?_⟩
  · intro h
    rw [CertGen.move_files_to_final, CertGen.moveLoop_no_raise env _ h]
    simp
  · rw [CertGen.move_files_to_final]
    exact CertGen.moveLoop_ok_false_iff env [a, b, c] [] []
  · intro hd hr
    rw [CertGen.move_files_to_final, CertGen.moveLoop, hd, hr]
    rw [if_pos rfl, if_neg (by simp)]
    exact CertGen.moveLoop_moved_mono env [b, c] a [a] [] (by simp)

/-- Witness for C9: proof and signed text exist, the PDF is missing, no
move raises — both existing files are moved, the missing one is warned
about, and the call returns `True`. -/
theorem claim_C9_move_files_to_final_witness :
    CertGen.move_files_to_final
      ⟨fun f => f != "cert.pdf", fun _ => false⟩
      "cert.txt.ots" "cert.txt" "cert.pdf" =
      ⟨true, ["cert.txt.ots", "cert.txt"], ["cert.pdf"]⟩ := by
  have h := (claim_C9_move_files_to_final
    ⟨fun f => f != "cert.pdf", fun _ => false⟩
    "cert.txt.ots" "cert.txt" "cert.pdf").1 (by intro f hf; rfl)
  rw [h]
  rfl

/-- C10: in both plaintext generators, whenever `generate_certificate`
completes successfully, the unsigned certificate file it wrote has been
deleted, and the only certificate text persisting is the signed variant
together with its timestamp proof. -/
theorem claim_C10_unsigned_not_retained :
    (∀ (env : CertGen.SignEnv) (rfp : List Char) (fs fs2 : List (List Char)),
      CertGen.generate_certificate_bitcoin env rfp fs = .ok fs2 →
        rfp ++ "/bitcoin_certificate.txt".toList ∉ fs2 ∧
        CertGen.signedFileName
          (rfp ++ "/bitcoin_certificate.txt".toList) ∈ fs2 ∧
        CertGen.signedFileName (rfp ++ "/bitcoin_certificate.txt".toList) ++
          ".ots".toList ∈ fs2) ∧
    (∀ (env : CertGen.SignEnv) (u cid : List Char)
        (fs fs2 : List (List Char)),
      CertGen.generate_certificate_course env u cid fs = .ok fs2 →
        "../pending/course_certificate_".toList ++ u ++ "_".toList ++
          cid ++ ".txt".toList ∉ fs2 ∧
        CertGen.signedFileName
          ("../pending/course_certificate_".toList ++ u ++ "_".toList ++
            cid ++ ".txt".toList) ∈ fs2 ∧
        CertGen.signedFileName
          ("../pending/course_certificate_".toList ++ u ++ "_".toList ++
            cid ++ ".txt".toList) ++ ".ots".toList ∈ fs2) := by
  constructor
  · intro env rfp fs fs2 h
    refine CertGen.writeSignRemoveStamp_ok env fs _ ?_ fs2 h
    rw [List.length_append]
    have h24 : ("/bitcoin_certificate.txt".toList.length) = 24 := rfl
    omega
  · intro env u cid fs fs2 h
    refine CertGen.writeSignRemoveStamp_ok env fs _ ?_ fs2 h
    rw [List.length_append, List.length_append, List.length_append,
      List.length_append]
    have h30 : ("../pending/course_certificate_".toList.length) = 30 := rfl
    have h4 : (".txt".toList.length) = 4 := rfl
    omega

/-- Witness for C10 on the bitcoin generator, successful run from an empty
filesystem: only the signed text and its proof remain. -/
theorem claim_C10_unsigned_not_retained_witness :
    ("r".toList ++ "/bitcoin_certificate.txt".toList) ∉
      ["r/bitcoin_certificate-signed.txt.ots".toList,
       "r/bitcoin_certificate-signed.txt".toList] ∧
    CertGen.signedFileName
      ("r".toList ++ "/bitcoin_certificate.txt".toList) ∈
      ["r/bitcoin_certificate-signed.txt.ots".toList,
       "r/bitcoin_certificate-signed.txt".toList] ∧
    CertGen.signedFileName
      ("r".toList ++ "/bitcoin_certificate.txt".toList) ++ ".ots".toList ∈
      ["r/bitcoin_certificate-signed.txt.ots".toList,
       "r/bitcoin_certificate-signed.txt".toList] :=
  claim_C10_unsigned_not_retained.1 ⟨0, 0⟩ "r".toList []
    ["r/bitcoin_certificate-signed.txt.ots".toList,
     "r/bitcoin_certificate-signed.txt".toList] (by rfl)

/-- C1: the idempotency gate.  In the PDF orchestrator an item whose
rendered PDF already exists is skipped entirely — no tool invocation, no
compiler run, no file write, no move; in the plaintext orchestrator an
item whose proof file already exists triggers no generation.  Running the
orchestrator a second time over a finalized item therefore performs no
action at all for it. -/
theorem claim_C1_idempotency_gate :
    (∀ (env : CertGen.PdfItemEnv) (p : String),
      env.onDisk (p ++ "/bitcoin_certificate-signed.pdf") = true →
      CertGen.processSubfolder env p = []) ∧
    (∀ (env : CertGen.TxtItemEnv) (p : String),
      env.otsExists = true →
      CertGen.process_result env p = []) := by
  constructor
  · intro env p h
    rw [CertGen.processSubfolder]
    simp only [h]
    simp
  · intro env p h
    rw [CertGen.process_result, h]
    split
    · rfl
    · split
      · rfl
      · rfl

/-- Witness for C1: a concrete environment in which every path exists (so
the PDF does), and a concrete plaintext item whose proof exists — both
skip with an empty action trace. -/
theorem claim_C1_idempotency_gate_witness :
    CertGen.processSubfolder
      ⟨fun _ => true, ⟨"cert.txt.ots", "asi0", "asi0", 0, 0, "", 0, ""⟩,
        0, true, []⟩ "r" = [] ∧
    CertGen.process_result ⟨true, some [90], true, ⟨0, 0⟩⟩ "r" = [] :=
  ⟨claim_C1_idempotency_gate.1
    ⟨fun _ => true, ⟨"cert.txt.ots", "asi0", "asi0", 0, 0, "", 0, ""⟩,
      0, true, []⟩ "r" rfl,
   claim_C1_idempotency_gate.2 ⟨true, some [90], true, ⟨0, 0⟩⟩ "r" rfl⟩

/-- C7: `extract_property` never raises: when the property name occurs
nowhere in the content (case-insensitively) it returns `none`; and when the
content contains a line of the form name-colon-space-value (with the first
occurrence of the name starting that line and the value a newline-free
string with some non-whitespace character), it returns the trimmed
remainder of that line. -/
theorem claim_C7_extract_property :
    (∀ (content name : String),
      CertGen.containsCI name.toList content.toList = false →
      CertGen.extract_property content name = none) ∧
    (∀ (pre name v post : List Char),
      (∀ i, i < pre.length →
        CertGen.matchesCI name
          ((pre ++ (name ++ (':' :: ' ' :: v ++ '\n' :: post))).drop i) =
          false) →
      (∃ c ∈ v, CertGen.isPyWs c = false) →
      '\n' ∉ v →
      CertGen.extract_property
        (String.mk (pre ++ (name ++ (':' :: ' ' :: v ++ '\n' :: post))))
        (String.mk name) = some (String.mk (CertGen.pyStrip v))) := by
  constructor
  · intro content name h
    rw [CertGen.extract_property,
      CertGen.searchGroup_eq_none_of_not_contains _ _ h]
  · intro pre name v post hpre hv hnl
    have hsg := CertGen.extract_property_positive pre name v post hpre hv hnl
    rw [CertGen.extract_property]
    show (match CertGen.searchGroup name
        (pre ++ (name ++ (':' :: ' ' :: v ++ '\n' :: post))) with
      | some g => some (String.mk (CertGen.pyStrip g))
      | none => none) = some (String.mk (CertGen.pyStrip v))
    rw [hsg]
    obtain ⟨c, v2, hdrop, hcw⟩ := CertGen.dropWhile_exists_cons v hv
    have hps : CertGen.pyStrip (v.dropWhile CertGen.isPyWs) =
        CertGen.pyStrip v := by
      rw [CertGen.pyStrip, CertGen.pyStrip, hdrop, List.dropWhile_cons,
        if_neg (by rw [hcw]; exact Bool.false_ne_true), ← hdrop]
    dsimp only
    rw [hps]

/-- Witness for C7: a missing property yields `none`; a present
`Full name: Alice Smith` line yields the trimmed value. -/
theorem claim_C7_extract_property_witness :
    CertGen.extract_property "Score: 95\n" "Course name" = none ∧
    CertGen.extract_property
      (String.mk ("Intro\n".toList ++ ("Full name".toList ++
        (':' :: ' ' :: "Alice Smith".toList ++ '\n' :: "Date: x".toList))))
      (String.mk "Full name".toList) =
      some (String.mk (CertGen.pyStrip "Alice Smith".toList)) :=
  ⟨claim_C7_extract_property.1 "Score: 95\n" "Course name" (by decide),
   claim_C7_extract_property.2 "Intro\n".toList "Full name".toList
     "Alice Smith".toList "Date: x".toList (by decide) (by decide)
     (by decide)⟩

/-- C8 counterexample: the claim says every placeholder with a field is
replaced by that field value and nothing else is altered.  The loop of
`modify_and_save_tex` applies `str.replace` sequentially, so a value
containing the placeholder of a later field is rewritten again: on the
template of one placeholder for the key `a`, with the field `a` mapped to
the literal placeholder of `b` and `b` mapped to `X`, the code produces
`X`, while the claimed behaviour (the specification renderer) produces the
value of `a` verbatim. -/
theorem claim_C8_counterexample :
    CertGen.renderTemplate [CertGen.obr, 'a', CertGen.cbr]
      [(['a'], [CertGen.obr, 'b', CertGen.cbr]), (['b'], ['X'])] = ['X'] ∧
    CertGen.specRender
      [(['a'], [CertGen.obr, 'b', CertGen.cbr]), (['b'], ['X'])]
      [CertGen.obr, 'a', CertGen.cbr] = [CertGen.obr, 'b', CertGen.cbr] ∧
    (['X'] : List Char) ≠ [CertGen.obr, 'b', CertGen.cbr] := by
  refine ⟨?_, ?_, by decide⟩
  · simp [CertGen.renderTemplate, CertGen.pyReplace, CertGen.placeholder,
      CertGen.obr, CertGen.cbr, List.isPrefixOf]
  · simp [CertGen.specRender, CertGen.findField, CertGen.placeholder,
      CertGen.obr, CertGen.cbr, List.isPrefixOf, List.find?]

/-- C8 amended: for templates in which every opening brace opens a
well-formed placeholder with a brace-free name, and field keys and values
containing no braces (so no replacement can create or destroy a
placeholder), the sequential replacement loop agrees with the claimed
behaviour: every placeholder whose name has a field is replaced by that
field value, every other placeholder is left untouched, and all other
template text is unaltered. -/
theorem claim_C8_amended_render (t : List Char)
    (fields : List (List Char × List Char))
    (hwf : CertGen.wfTemplate t = true)
    (hfields : ∀ kv ∈ fields,
      CertGen.braceFree kv.1 ∧ CertGen.braceFree kv.2) :
    CertGen.renderTemplate t fields = CertGen.specRender fields t :=
  CertGen.renderTemplate_eq_specRender_core fields hfields t hwf

/-- Witness for C8 amended on the template of a matched placeholder `a`,
literal text, and an unmatched placeholder `c`. -/
theorem claim_C8_amended_render_witness :
    CertGen.renderTemplate
      [CertGen.obr, 'a', CertGen.cbr, ' ', 'x', CertGen.obr, 'c',
        CertGen.cbr] [(['a'], ['A'])] =
    CertGen.specRender [(['a'], ['A'])]
      [CertGen.obr, 'a', CertGen.cbr, ' ', 'x', CertGen.obr, 'c',
        CertGen.cbr] :=
  claim_C8_amended_render
    [CertGen.obr, 'a', CertGen.cbr, ' ', 'x', CertGen.obr, 'c',
      CertGen.cbr] [(['a'], ['A'])]
    (by
      show CertGen.wfTemplate
        (CertGen.obr :: (['a'] ++ CertGen.cbr :: (' ' :: 'x' ::
          CertGen.obr :: (['c'] ++ CertGen.cbr :: [])))) = true
      rw [CertGen.wfTemplate_open ['a'] _ (by decide),
        CertGen.wfTemplate_cons_not_obr ' ' _ (by decide),
        CertGen.wfTemplate_cons_not_obr 'x' _ (by decide),
        CertGen.wfTemplate_open ['c'] _ (by decide)]
      exact CertGen.wfTemplate_nil)
    (by decide)
